import Mathlib

set_option maxHeartbeats 1000000

/-!
Verification development for the dg recursive file-tailing agent.

The Lean definitions below are a shallow embedding of the Rust sources:
bytes are Nat, byte buffers are List Nat, machine reads and channel polls
are made explicit inputs, and the external scalable cuckoo filter is
represented by its construction parameters together with the ordered list
of words inserted into it (the published contract of the library used by
the program).  Each definition names the source item it embeds.
-/

/-! # Byte-level predicates (src/tokenize.rs) -/

/-- Continuation byte of a multi-byte UTF-8 sequence: 0x80..=0xBF. -/
def isCont (b : Nat) : Bool := 0x80 ≤ b && b ≤ 0xBF

/-- Rust expression (b as char).is_alphanumeric() for a byte b, i.e.
char::is_alphanumeric restricted to the code points U+0000..=U+00FF.
Alphanumeric in that range are the ASCII digits and letters, the Latin-1
letters and numeric signs 0xAA 0xB2 0xB3 0xB5 0xB9 0xBA 0xBC 0xBD 0xBE,
and 0xC0..=0xFF except the two mathematical signs 0xD7 and 0xF7. -/
def char_is_alphanumeric (b : Nat) : Bool :=
  (0x30 ≤ b && b ≤ 0x39) || (0x41 ≤ b && b ≤ 0x5A) || (0x61 ≤ b && b ≤ 0x7A) ||
  b == 0xAA || b == 0xB2 || b == 0xB3 || b == 0xB5 || b == 0xB9 || b == 0xBA ||
  b == 0xBC || b == 0xBD || b == 0xBE ||
  (0xC0 ≤ b && b ≤ 0xFF && b != 0xD7 && b != 0xF7)

/-- Byte class that begins (and continues) a word in WordTokenizer::next,
src/tokenize.rs line 21: (b as char).is_alphanumeric() || (b >> 6) == 0b11. -/
def is_word_byte (b : Nat) : Bool := char_is_alphanumeric b || b >>> 6 == 3

/-- Byte class that ends a word in WordTokenizer::next, src/tokenize.rs
line 36: !(b as char).is_alphanumeric() && b < 0x80. -/
def is_word_terminator (b : Nat) : Bool := !char_is_alphanumeric b && b < 0x80

/-- Byte class the specification sentence of claim C3 describes: ASCII
alphanumeric, or top two bits 11 (a UTF-8 lead byte).  Stated from the
words of the spec, for comparison with the byte classes of the code. -/
def spec_ascii_alnum_or_lead (b : Nat) : Bool :=
  ((0x30 ≤ b && b ≤ 0x39) || (0x41 ≤ b && b ≤ 0x5A) || (0x61 ≤ b && b ≤ 0x7A)) ||
  b >>> 6 == 3

/-! # UTF-8 validation (Rust str::from_utf8 / String::from_utf8) -/

/-- Allowed range of the second byte of a three-byte sequence, depending on
its lead byte (UTF-8 shortest-form and surrogate exclusion rules). -/
def cont3ok (b0 b1 : Nat) : Bool :=
  if b0 == 0xE0 then 0xA0 ≤ b1 && b1 ≤ 0xBF
  else if b0 == 0xED then 0x80 ≤ b1 && b1 ≤ 0x9F
  else isCont b1

/-- Allowed range of the second byte of a four-byte sequence, depending on
its lead byte (shortest-form and U+10FFFF upper-bound rules). -/
def cont4ok (b0 b1 : Nat) : Bool :=
  if b0 == 0xF0 then 0x90 ≤ b1 && b1 ≤ 0xBF
  else if b0 == 0xF4 then 0x80 ≤ b1 && b1 ≤ 0x8F
  else isCont b1

/-- Strict UTF-8 validity of a byte sequence, as checked by Rust's
str::from_utf8: rejects overlong encodings, surrogates and values above
U+10FFFF. -/
def validUtf8 : List Nat → Bool
  | [] => true
  | b0 :: rest =>
    if b0 < 0x80 then validUtf8 rest
    else if b0 < 0xC2 then false
    else if b0 ≤ 0xDF then
      match rest with
      | b1 :: rest2 => isCont b1 && validUtf8 rest2
      | [] => false
    else if b0 ≤ 0xEF then
      match rest with
      | b1 :: b2 :: rest3 => cont3ok b0 b1 && isCont b2 && validUtf8 rest3
      | _ => false
    else if b0 ≤ 0xF4 then
      match rest with
      | b1 :: b2 :: b3 :: rest4 =>
        cont4ok b0 b1 && isCont b2 && isCont b3 && validUtf8 rest4
      | _ => false
    else false

/-- One complete well-formed UTF-8 character encoding. -/
inductive Utf8Char : List Nat → Prop
  | ascii (b : Nat) : b < 0x80 → Utf8Char [b]
  | two (b0 b1 : Nat) : 0xC2 ≤ b0 → b0 ≤ 0xDF → isCont b1 = true → Utf8Char [b0, b1]
  | three (b0 b1 b2 : Nat) : 0xE0 ≤ b0 → b0 ≤ 0xEF → cont3ok b0 b1 = true →
      isCont b2 = true → Utf8Char [b0, b1, b2]
  | four (b0 b1 b2 b3 : Nat) : 0xF0 ≤ b0 → b0 ≤ 0xF4 → cont4ok b0 b1 = true →
      isCont b2 = true → isCont b3 = true → Utf8Char [b0, b1, b2, b3]

/-- Strict nonempty beginning of a single multi-byte UTF-8 character whose
trailing bytes are still missing (the truncated final code point of a
read). -/
inductive Utf8Fragment : List Nat → Prop
  | two0 (b0 : Nat) : 0xC2 ≤ b0 → b0 ≤ 0xDF → Utf8Fragment [b0]
  | three0 (b0 : Nat) : 0xE0 ≤ b0 → b0 ≤ 0xEF → Utf8Fragment [b0]
  | three1 (b0 b1 : Nat) : 0xE0 ≤ b0 → b0 ≤ 0xEF → cont3ok b0 b1 = true →
      Utf8Fragment [b0, b1]
  | four0 (b0 : Nat) : 0xF0 ≤ b0 → b0 ≤ 0xF4 → Utf8Fragment [b0]
  | four1 (b0 b1 : Nat) : 0xF0 ≤ b0 → b0 ≤ 0xF4 → cont4ok b0 b1 = true →
      Utf8Fragment [b0, b1]
  | four2 (b0 b1 b2 : Nat) : 0xF0 ≤ b0 → b0 ≤ 0xF4 → cont4ok b0 b1 = true →
      isCont b2 = true → Utf8Fragment [b0, b1, b2]

/-! # Word tokenizer (src/tokenize.rs, WordTokenizer) -/

/-- Index of the first element satisfying p, mirroring Rust's
Iterator::position on a byte iterator. -/
def position? (p : Nat → Bool) : List Nat → Option Nat
  | [] => none
  | b :: rest => if p b then some 0 else (position? p rest).map (· + 1)

/-- First candidate word position at or after pos: the skip loop of
WordTokenizer::next (src/tokenize.rs lines 18-26); yields bytes.length when
no word byte remains. -/
def skip_to_word (bytes : List Nat) (pos : Nat) : Nat :=
  match position? is_word_byte (bytes.drop pos) with
  | some n => pos + n
  | none => bytes.length

/-- End position of the word starting at start: the scan of
src/tokenize.rs lines 33-38, which looks for a terminator strictly after
start and falls back to bytes.length. -/
def word_end_pos (bytes : List Nat) (start : Nat) : Nat :=
  match position? is_word_terminator (bytes.drop (start + 1)) with
  | some p => p + start + 1
  | none => bytes.length

/-- One item of the WordTokenizer iterator: Ok((start, word)) or the
Err(InvalidInput) produced when str::from_utf8 rejects the slice. -/
inductive TokenResult
  | word (start : Nat) (bytes : List Nat)
  | invalidUtf8
deriving DecidableEq

/-- WordTokenizer::next (src/tokenize.rs lines 17-45): skip to the first
word byte; if none remains yield nothing, else cut the word at the first
terminator after it and validate it as UTF-8.  Returns the item together
with the iterator position after it. -/
def next_token (bytes : List Nat) (pos : Nat) : Option (TokenResult × Nat) :=
  let start := skip_to_word bytes pos
  if start = bytes.length then none
  else
    let e := word_end_pos bytes start
    let w := (bytes.drop start).take (e - start)
    some ((if validUtf8 w then TokenResult.word start w else TokenResult.invalidUtf8), e)

/-- Fuel-indexed iteration of next_token.  The fuel is a termination
device only: each step strictly advances the position, so any fuel of at
least bytes.length + 1 - pos runs the iterator to exhaustion. -/
def tokenize_fuel (bytes : List Nat) : Nat → Nat → List TokenResult
  | 0, _ => []
  | fuel + 1, pos =>
    match next_token bytes pos with
    | none => []
    | some (item, p2) => item :: tokenize_fuel bytes fuel p2

/-- Complete item sequence of WordTokenizer::new(bytes). -/
def tokenize (bytes : List Nat) : List TokenResult :=
  tokenize_fuel bytes (bytes.length + 1) 0

/-! # Cuckoo filter model and per-file agent state (src/agent/mod.rs) -/

/-- Model of the external ScalableCuckooFilter: the parameters passed to
ScalableCuckooFilterBuilder in FileState::new together with the ordered
list of words inserted so far.  The library itself is outside the spec
scope; its published contract (contains is true for every inserted word)
is captured by the insertion history.  The false-positive probability is
the literal 0.001 of the source, kept as the rational 1/1000.  rng_seed
records the seed handed to the generator. -/
structure ScalableCuckooFilter where
  initial_capacity : Nat
  false_positive_num : Nat
  false_positive_den : Nat
  rng_seed : Nat
  inserted : List (List Nat)
deriving DecidableEq

/-- Insertion of one word (cuckoo_filter.insert(w) in update_cuckoo_filter). -/
def ScalableCuckooFilter.insert (f : ScalableCuckooFilter) (w : List Nat) :
    ScalableCuckooFilter :=
  { f with inserted := f.inserted ++ [w] }

/-- FileContent (src/watch/fs/file.rs lines 51-56). -/
structure FileContent where
  offset : Nat
  data : List Nat
  eof : Bool
deriving DecidableEq

/-- FileState (src/agent/mod.rs lines 111-116). -/
structure FileState where
  cuckoo_filter : ScalableCuckooFilter
  buf : List Nat
  is_binary : Bool
deriving DecidableEq

/-- FileState::new (src/agent/mod.rs lines 117-129).  The source seeds the
generator with StdRng::new().unwrap(); in the rand crate used, StdRng::new
draws a fresh seed from the operating system entropy source, which the
embedding makes explicit as the os_entropy argument. -/
def FileState.new (os_entropy : Nat) : FileState :=
  { cuckoo_filter :=
      { initial_capacity := 100000
        false_positive_num := 1
        false_positive_den := 1000
        rng_seed := os_entropy
        inserted := [] }
    buf := []
    is_binary := false }

/-- The for-loop body of FileState::update_cuckoo_filter (src/agent/mod.rs
lines 136-149): walk the token items in order; an Ok word is inserted and
advances end to start + word length; the first Err sets the binary flag,
sets end to the buffer length and breaks.  Returns (filter, end, binary). -/
def run_tokens (buf_len : Nat) (f : ScalableCuckooFilter) (e : Nat) :
    List TokenResult → ScalableCuckooFilter × Nat × Bool
  | [] => (f, e, false)
  | TokenResult.invalidUtf8 :: _ => (f, buf_len, true)
  | TokenResult.word start w :: rest => run_tokens buf_len (f.insert w) (start + w.length) rest

/-- End position of the last Ok word of a token item sequence, 0 when it
holds no word: the value the end variable of update_cuckoo_filter carries
after the loop on a run with no Err item.  Computed directly from the
token list, independently of the loop. -/
def last_word_end (toks : List TokenResult) : Nat :=
  match toks.getLast? with
  | some (TokenResult.word start w) => start + w.length
  | _ => 0

/-- FileState::update_cuckoo_filter (src/agent/mod.rs lines 130-155):
return unchanged when the binary flag is latched; otherwise extend the
carry buffer with the chunk data, tokenize it from the start, and either
clear the buffer (binary detected) or drain it up to end. -/
def FileState.update_cuckoo_filter (s : FileState) (content : FileContent) : FileState :=
  if s.is_binary then s
  else
    let buf := s.buf ++ content.data
    let r := run_tokens buf.length s.cuckoo_filter 0 (tokenize buf)
    if r.2.2 then { cuckoo_filter := r.1, buf := [], is_binary := true }
    else { cuckoo_filter := r.1, buf := buf.drop r.2.1, is_binary := false }

/-! # FileContent tailer (src/watch/fs/file.rs) -/

/-- READ_BUFFER_SIZE (src/watch/fs/file.rs line 14). -/
def READ_BUFFER_SIZE : Nat := 1024 * 1024

/-- The blocking closure of ReadFileContent::poll (src/watch/fs/file.rs
lines 141-155): open, seek to offset, read up to READ_BUFFER_SIZE bytes,
truncate to the read length, mark eof when the read came up short.  A read
of a regular file returns min(remaining, buffer) bytes.  The returned data
is exactly the bytes read: no UTF-8 trimming is applied here. -/
def read_file_content (file : List Nat) (offset : Nat) : FileContent :=
  let data := (file.drop offset).take READ_BUFFER_SIZE
  { offset := offset, data := data, eof := decide (data.length < READ_BUFFER_SIZE) }

/-- Result of polling the FileUpdated signal channel once. -/
inductive ChannelPoll
  | notReady
  | closed
  | updated
deriving DecidableEq

/-- Inputs of one PlainFileWatcher::poll call: the state of the signal
channel and, when the pending ReadFileContent future finished during this
poll, the data and eof flag it produced (the file may have changed between
reads, so the data is unconstrained). -/
structure TailerPollInput where
  ch : ChannelPoll
  read_done : Option (List Nat × Bool)
deriving DecidableEq

/-- State of PlainFileWatcher (src/watch/fs/file.rs lines 58-65):
current_position, the offset captured by the pending ReadFileContent (if
any), and the is_updated flag.  Timers only delay reads and are dropped. -/
structure TailerState where
  current_position : Nat
  pending_read : Option Nat
  is_updated : Bool
deriving DecidableEq

/-- The event_rx.poll arm of PlainFileWatcher::poll (lines 94-98). -/
def receive_event (s : TailerState) (ch : ChannelPoll) : TailerState :=
  if ch = ChannelPoll.updated then { s with is_updated := true } else s

/-- Lines 99-102: when no read is pending and an update arrived, schedule
a read at current_position (start_read_file_content resets is_updated). -/
def maybe_start_read (s : TailerState) : TailerState :=
  if s.pending_read = none ∧ s.is_updated then
    { s with pending_read := some s.current_position, is_updated := false }
  else s

/-- Lines 103-108: a completed read advances current_position to
offset + data length and, unless eof, immediately schedules the next read
at the new position. -/
def complete_read (s : TailerState) (off : Nat) (data : List Nat) (eof : Bool) :
    TailerState :=
  let pos2 := off + data.length
  if eof then { current_position := pos2, pending_read := none, is_updated := s.is_updated }
  else { current_position := pos2, pending_read := some pos2, is_updated := false }

/-- PlainFileWatcher::poll (src/watch/fs/file.rs lines 90-115).  none
models end of stream (signal channel closed); otherwise the new state and
the chunk yielded, if any: a completed read yields its content exactly
when the data is nonempty. -/
def tailer_poll (s : TailerState) (i : TailerPollInput) :
    Option (TailerState × Option FileContent) :=
  if i.ch = ChannelPoll.closed then none
  else
    let s2 := maybe_start_read (receive_event s i.ch)
    match s2.pending_read, i.read_done with
    | some off, some (data, eof) =>
      some (complete_read s2 off data eof,
            if data.isEmpty then none else some { offset := off, data := data, eof := eof })
    | _, _ => some (s2, none)

/-- Chunks emitted over a sequence of poll invocations, stopping at end of
stream. -/
def tailer_run : TailerState → List TailerPollInput → List FileContent
  | _, [] => []
  | s, i :: rest =>
    match tailer_poll s i with
    | none => []
    | some (s2, none) => tailer_run s2 rest
    | some (s2, some c) => c :: tailer_run s2 rest

/-- PlainFileWatcher::new (lines 66-77): position 0 and an initial read
scheduled at once with zero delay. -/
def tailer_initial : TailerState :=
  { current_position := 0, pending_read := some 0, is_updated := false }

/-- Contiguity relation of claim C5 between two consecutive chunks. -/
def contig (c1 c2 : FileContent) : Prop := c1.offset + c1.data.length = c2.offset

/-! # Text-file tailer with UTF-8 trimming (src/watch/file.rs) -/

/-- The backward trimming loop of TextFileSubscriber::check_content
(src/watch/file.rs lines 135-144), expressed on the reversed buffer: an
ASCII byte (b < 0x80) breaks and is kept; a byte with bit 6 set (a lead
byte) is dropped and breaks; any other byte (a continuation byte) is
dropped and the walk continues. -/
def trimBack : List Nat → List Nat
  | [] => []
  | b :: tl => if b < 0x80 then b :: tl else if b &&& 0x40 != 0 then tl else trimBack tl

/-- Data kept by the trimming loop: the buffer truncated to the new
read_size. -/
def utf8_truncate (buf : List Nat) : List Nat := (trimBack buf.reverse).reverse

/-- ErrorKind (src/error.rs). -/
inductive ErrorKind
  | invalidInput
  | other
deriving DecidableEq

/-- FileChunk (src/watch/file.rs lines 182-186); data is the byte content
of the String. -/
structure FileChunk where
  offset : Nat
  data : List Nat
deriving DecidableEq

/-- TextFileSubscriber::check_content (src/watch/file.rs lines 126-153):
read up to 1 MiB from position, trim the tail back to a UTF-8 boundary,
convert to a String (InvalidInput on failure, per the From impl in
src/error.rs), and advance position by the kept length, so that trimmed
bytes are read again on the next pass.  Returns the chunk and the new
position. -/
def check_content (file : List Nat) (position : Nat) :
    Except ErrorKind (FileChunk × Nat) :=
  let raw := (file.drop position).take READ_BUFFER_SIZE
  let data := utf8_truncate raw
  if validUtf8 data then Except.ok ({ offset := position, data := data }, position + data.length)
  else Except.error ErrorKind.invalidInput

/-! # Notification service (src/inotify_service.rs) -/

/-- Kernel inotify mask bits used by the service and its callers. -/
def IN_MODIFY : Nat := 0x00000002

def IN_MOVED_FROM : Nat := 0x00000040

def IN_MOVED_TO : Nat := 0x00000080

def IN_CREATE : Nat := 0x00000100

def IN_DELETE : Nat := 0x00000200

def IN_DELETE_SELF : Nat := 0x00000400

def IN_MOVE_SELF : Nat := 0x00000800

def IN_IGNORED : Nat := 0x00008000

def IN_ONLYDIR : Nat := 0x01000000

def IN_DONT_FOLLOW : Nat := 0x02000000

def IN_EXCL_UNLINK : Nat := 0x04000000

def IN_MASK_ADD : Nat := 0x20000000

def IN_ISDIR : Nat := 0x40000000

def IN_ONESHOT : Nat := 0x80000000

/-- Union of the five mask bits named by the track_assert of
InotifyService::add_watch (src/inotify_service.rs lines 99-107). -/
def unsupported_mask : Nat :=
  IN_DONT_FOLLOW ||| IN_EXCL_UNLINK ||| IN_MASK_ADD ||| IN_ONESHOT ||| IN_ONLYDIR

/-- Watch (src/inotify_service.rs lines 241-246); the event channel is an
opaque identifier. -/
structure Watch where
  raw_wd : Nat
  mask : Nat
  event_tx : Nat
deriving DecidableEq

/-- Bookkeeping state of InotifyService (src/inotify_service.rs lines
15-21) plus a model of the kernel watch table: paths are opaque
identifiers, and the kernel returns one raw descriptor per path (aliasing
of one inode through several paths is out of scope here).  Adding with
IN_MASK_ADD set unions the masks on an existing raw watch. -/
structure InotifyServiceState where
  watches : List (Nat × Watch)
  raw_wd_map : List (Nat × List Nat)
  next_wd : Nat
  kernel_watches : List (Nat × Nat)
deriving DecidableEq

/-- Kernel inotify_add_watch with IN_MASK_ADD semantics. -/
def kernel_add_watch (kernel : List (Nat × Nat)) (raw_wd mask : Nat) :
    List (Nat × Nat) :=
  match kernel.find? (fun e => e.1 == raw_wd) with
  | some e => kernel.filter (fun x => x.1 != raw_wd) ++ [(raw_wd, e.2 ||| mask)]
  | none => kernel ++ [(raw_wd, mask)]

/-- InotifyService::add_watch (src/inotify_service.rs lines 93-127).  The
guard is the track_assert as written: it fails with InvalidInput exactly
when mask.contains(DONT_FOLLOW | EXCL_UNLINK | MASK_ADD | ONESHOT |
ONLYDIR), i.e. when the mask contains all five bits at once (bitflags
contains is a superset test).  On success the kernel watch is added with
mask | MASK_ADD, a fresh descriptor is minted and both tables updated. -/
def add_watch (s : InotifyServiceState) (path mask event_tx : Nat) :
    Except ErrorKind (InotifyServiceState × Nat) :=
  if mask &&& unsupported_mask == unsupported_mask then
    Except.error ErrorKind.invalidInput
  else
    let raw_wd := path
    let kernel := kernel_add_watch s.kernel_watches raw_wd (mask ||| IN_MASK_ADD)
    let wd := s.next_wd
    let raw_map :=
      match s.raw_wd_map.find? (fun e => e.1 == raw_wd) with
      | some e => s.raw_wd_map.filter (fun x => x.1 != raw_wd) ++ [(raw_wd, e.2 ++ [wd])]
      | none => s.raw_wd_map ++ [(raw_wd, [wd])]
    Except.ok
      ({ watches := s.watches ++ [(wd, { raw_wd := raw_wd, mask := mask, event_tx := event_tx })]
         raw_wd_map := raw_map
         next_wd := s.next_wd + 1
         kernel_watches := kernel }, wd)

/-- A service with no watches yet (state right after InotifyService::new). -/
def empty_service : InotifyServiceState :=
  { watches := [], raw_wd_map := [], next_wd := 0, kernel_watches := [] }

/-! # Directory events and the file-system watcher (src/watch/fs/file_system.rs) -/

/-- DirectoryEvent (src/watch/fs/directory.rs lines 122-126).  Paths are
modelled as component lists; PathBuf::join appends one component. -/
inductive DirEvent
  | updated (path : List Nat) (is_dir : Bool)
  | removed (path : List Nat) (is_dir : Bool)
deriving DecidableEq

/-- FileSystemWatcher state relevant to handle_dir_event: the
watching_files map from path to the sending half of the tailer signal
channel (src/watch/fs/file_system.rs line 20).  Channels are opaque
identifiers; next_chan models allocation of a fresh mpsc channel. -/
structure FsWatcherState where
  watching_files : List (List Nat × Nat)
  next_chan : Nat
deriving DecidableEq

/-- HashMap::get on the watching_files map. -/
def lookup_chan (m : List (List Nat × Nat)) (p : List Nat) : Option Nat :=
  (m.find? (fun e => e.1 == p)).map (fun e => e.2)

/-- HashMap::remove on the watching_files map. -/
def remove_chan (m : List (List Nat × Nat)) (p : List Nat) : List (List Nat × Nat) :=
  m.filter (fun e => e.1 != p)

/-- HashMap::insert on the watching_files map (replaces any old entry). -/
def insert_chan (m : List (List Nat × Nat)) (p : List Nat) (c : Nat) :
    List (List Nat × Nat) :=
  remove_chan m p ++ [(p, c)]

/-- Outcome of FileSystemWatcher::handle_dir_event: new state, the fresh
WatchedFile value emitted downstream (path and the receiving channel), and
the channel on which a FileUpdated signal was delivered, if any. -/
structure DirEventOutcome where
  state : FsWatcherState
  new_file : Option (List Nat × Nat)
  delivered : Option Nat
deriving DecidableEq

/-- FileSystemWatcher::handle_dir_event (src/watch/fs/file_system.rs lines
65-105).  live c is true when the send on channel c succeeds (its tailer
still holds the receiving end). -/
def handle_dir_event (live : Nat → Bool) (s : FsWatcherState) :
    DirEvent → DirEventOutcome
  | DirEvent.updated _ true => { state := s, new_file := none, delivered := none }
  | DirEvent.removed _ true => { state := s, new_file := none, delivered := none }
  | DirEvent.updated path false =>
    match lookup_chan s.watching_files path with
    | some c =>
      if live c then { state := s, new_file := none, delivered := some c }
      else
        { state :=
            { watching_files := insert_chan (remove_chan s.watching_files path) path s.next_chan
              next_chan := s.next_chan + 1 }
          new_file := some (path, s.next_chan)
          delivered := none }
    | none =>
      { state :=
          { watching_files := insert_chan s.watching_files path s.next_chan
            next_chan := s.next_chan + 1 }
        new_file := some (path, s.next_chan)
        delivered := none }
  | DirEvent.removed path false =>
    { state := { watching_files := remove_chan s.watching_files path, next_chan := s.next_chan }
      new_file := none
      delivered := none }

/-- Path keys of the watching_files map. -/
def chan_keys (m : List (List Nat × Nat)) : List (List Nat) := m.map Prod.fst

/-! # Directory watcher (src/watch/fs/directory.rs) -/

/-- WatcherEvent of the notification service stream as consumed by
DirectoryWatcher::poll_watcher.  A notified event carries the kernel event
mask and the entry name (the source unwraps the Option name for the arms
that use it). -/
inductive WatcherEvent
  | notified (mask : Nat) (name : Nat)
  | startWatching
  | restartWatching
deriving DecidableEq

/-- One poll of the underlying Watcher stream. -/
inductive WatcherPoll
  | notReady
  | endOfStream
  | item (e : WatcherEvent)
deriving DecidableEq

/-- Action (src/watch/fs/directory.rs lines 128-134); skip stands for the
Continue variant. -/
inductive DirAction
  | terminate
  | wait
  | skip
  | notify (ev : DirEvent)
deriving DecidableEq

/-- DirectoryWatcher::handle_inotify_event (src/watch/fs/directory.rs
lines 77-102). -/
def handle_inotify_event (dir : List Nat) (mask name : Nat) : DirAction :=
  if mask &&& (IN_DELETE_SELF ||| IN_MOVE_SELF ||| IN_IGNORED) != 0 then
    DirAction.terminate
  else if mask &&& (IN_CREATE ||| IN_MODIFY ||| IN_MOVED_TO) != 0 then
    DirAction.notify (DirEvent.updated (dir ++ [name]) (mask &&& IN_ISDIR != 0))
  else if mask &&& (IN_DELETE ||| IN_MOVED_FROM) != 0 then
    DirAction.notify (DirEvent.removed (dir ++ [name]) (mask &&& IN_ISDIR != 0))
  else DirAction.skip

/-- DirectoryWatcher state relevant to the listing start: whether the
list_dir slot holds a ListDirectory task (its contents are abstracted). -/
structure DirWatcherState where
  list_dir : Bool
deriving DecidableEq

/-- DirectoryWatcher::poll_watcher (src/watch/fs/directory.rs lines
58-76): NotReady waits, end of stream terminates, a notified event is
handled without touching list_dir, StartWatching creates the ListDirectory
task, RestartWatching terminates. -/
def poll_watcher (dir : List Nat) (s : DirWatcherState) (input : WatcherPoll) :
    DirWatcherState × DirAction :=
  match input with
  | WatcherPoll.notReady => (s, DirAction.wait)
  | WatcherPoll.endOfStream => (s, DirAction.terminate)
  | WatcherPoll.item (WatcherEvent.notified mask name) =>
    (s, handle_inotify_event dir mask name)
  | WatcherPoll.item WatcherEvent.startWatching => ({ list_dir := true }, DirAction.skip)
  | WatcherPoll.item WatcherEvent.restartWatching => (s, DirAction.terminate)

/-- Repeated poll_watcher steps over a sequence of stream polls. -/
def run_dir_watcher (dir : List Nat) : DirWatcherState → List WatcherPoll → DirWatcherState
  | s, [] => s
  | s, i :: rest => run_dir_watcher dir (poll_watcher dir s i).1 rest

/-- DirectoryWatcher::new (src/watch/fs/directory.rs lines 17-38): the
watch is requested and list_dir starts as None. -/
def dir_watcher_initial : DirWatcherState := { list_dir := false }

/-- Concrete file of claim C1: a valid UTF-8 file one byte longer than the
read buffer whose final character is the two-byte sequence 0xC3 0xA9, so
that a full-buffer read cuts the character in half. -/
def c1_file : List Nat := List.replicate (READ_BUFFER_SIZE - 1) 97 ++ [0xC3, 0xA9]

/-! # Facts about the tokenizer scans -/

theorem position?_cons (p : Nat → Bool) (b : Nat) (tl : List Nat) :
    position? p (b :: tl) = if p b then some 0 else (position? p tl).map (· + 1) := rfl

theorem position?_some {p : Nat → Bool} : ∀ {l : List Nat} {n : Nat},
    position? p l = some n →
    n < l.length ∧ p (l.getD n 0) = true ∧ ∀ i, i < n → p (l.getD i 0) = false := by
  intro l
  induction l with
  | nil => intro n h; simp [position?] at h
  | cons b tl ih =>
    intro n h
    rw [position?_cons] at h
    by_cases hb : p b
    · rw [if_pos hb] at h
      injection h with h
      subst h
      exact ⟨by simp, by simpa using hb, fun i hi => by omega⟩
    · rw [if_neg hb] at h
      cases hm : position? p tl with
      | none => rw [hm] at h; simp at h
      | some m =>
        rw [hm] at h
        simp only [Option.map_some', Option.some.injEq] at h
        subst h
        obtain ⟨h1, h2, h3⟩ := ih hm
        refine ⟨by simpa using h1, by simpa using h2, ?_⟩
        intro i hi
        cases i with
        | zero => simpa using hb
        | succ j => simpa using h3 j (by omega)

theorem position?_none {p : Nat → Bool} : ∀ {l : List Nat},
    position? p l = none → ∀ i, i < l.length → p (l.getD i 0) = false := by
  intro l
  induction l with
  | nil => intro _ i hi; simp at hi
  | cons b tl ih =>
    intro h i hi
    rw [position?_cons] at h
    by_cases hb : p b
    · rw [if_pos hb] at h; simp at h
    · rw [if_neg hb] at h
      simp only [Option.map_eq_none'] at h
      cases i with
      | zero => simpa using hb
      | succ j =>
        have hj : j < tl.length := by simpa using Nat.lt_of_succ_lt_succ hi
        simpa using ih h j hj

theorem getD_drop' (l : List Nat) : ∀ (k i : Nat), (l.drop k).getD i 0 = l.getD (k + i) 0 := by
  induction l with
  | nil => intro k i; simp
  | cons b tl ih =>
    intro k i
    cases k with
    | zero => simp
    | succ m =>
      have h : m + 1 + i = (m + i) + 1 := by omega
      simp [h, ih m i]

theorem skip_to_word_eq_of_none {bytes : List Nat} {pos : Nat}
    (h : position? is_word_byte (bytes.drop pos) = none) :
    skip_to_word bytes pos = bytes.length := by
  unfold skip_to_word; rw [h]

theorem skip_to_word_eq_of_some {bytes : List Nat} {pos n : Nat}
    (h : position? is_word_byte (bytes.drop pos) = some n) :
    skip_to_word bytes pos = pos + n := by
  unfold skip_to_word; rw [h]

theorem word_end_pos_eq_of_none {bytes : List Nat} {start : Nat}
    (h : position? is_word_terminator (bytes.drop (start + 1)) = none) :
    word_end_pos bytes start = bytes.length := by
  unfold word_end_pos; rw [h]

theorem word_end_pos_eq_of_some {bytes : List Nat} {start n : Nat}
    (h : position? is_word_terminator (bytes.drop (start + 1)) = some n) :
    word_end_pos bytes start = n + start + 1 := by
  unfold word_end_pos; rw [h]

theorem skip_to_word_no_word (bytes : List Nat) (pos : Nat) (hpos : pos ≤ bytes.length) :
    ∀ i, pos ≤ i → i < skip_to_word bytes pos → is_word_byte (bytes.getD i 0) = false := by
  intro i hpi hi
  cases h : position? is_word_byte (bytes.drop pos) with
  | none =>
    rw [skip_to_word_eq_of_none h] at hi
    have hlen : i - pos < (bytes.drop pos).length := by
      simp only [List.length_drop]; omega
    have hv := position?_none h (i - pos) hlen
    rwa [getD_drop', Nat.add_sub_cancel' hpi] at hv
  | some n =>
    rw [skip_to_word_eq_of_some h] at hi
    obtain ⟨h1, h2, h3⟩ := position?_some h
    have hv := h3 (i - pos) (by omega)
    rwa [getD_drop', Nat.add_sub_cancel' hpi] at hv

theorem skip_to_word_found (bytes : List Nat) (pos : Nat)
    (h : skip_to_word bytes pos ≠ bytes.length) :
    pos ≤ skip_to_word bytes pos ∧ skip_to_word bytes pos < bytes.length ∧
      is_word_byte (bytes.getD (skip_to_word bytes pos) 0) = true := by
  cases hp : position? is_word_byte (bytes.drop pos) with
  | none => exact absurd (skip_to_word_eq_of_none hp) h
  | some n =>
    obtain ⟨h1, h2, h3⟩ := position?_some hp
    simp only [List.length_drop] at h1
    rw [skip_to_word_eq_of_some hp]
    refine ⟨by omega, by omega, ?_⟩
    rwa [getD_drop'] at h2

theorem word_end_pos_upper (bytes : List Nat) (start : Nat) :
    word_end_pos bytes start ≤ bytes.length := by
  cases hp : position? is_word_terminator (bytes.drop (start + 1)) with
  | none => rw [word_end_pos_eq_of_none hp]
  | some n =>
    obtain ⟨h1, _, _⟩ := position?_some hp
    simp only [List.length_drop] at h1
    rw [word_end_pos_eq_of_some hp]
    omega

theorem word_end_pos_lower (bytes : List Nat) (start : Nat) (h : start < bytes.length) :
    start < word_end_pos bytes start := by
  cases hp : position? is_word_terminator (bytes.drop (start + 1)) with
  | none => rw [word_end_pos_eq_of_none hp]; omega
  | some n => rw [word_end_pos_eq_of_some hp]; omega

theorem word_end_pos_no_term (bytes : List Nat) (start : Nat) :
    ∀ i, start < i → i < word_end_pos bytes start →
      is_word_terminator (bytes.getD i 0) = false := by
  intro i hsi hi
  cases hp : position? is_word_terminator (bytes.drop (start + 1)) with
  | none =>
    rw [word_end_pos_eq_of_none hp] at hi
    have hlen : i - (start + 1) < (bytes.drop (start + 1)).length := by
      simp only [List.length_drop]; omega
    have hv := position?_none hp (i - (start + 1)) hlen
    rwa [getD_drop', Nat.add_sub_cancel' (by omega : start + 1 ≤ i)] at hv
  | some n =>
    rw [word_end_pos_eq_of_some hp] at hi
    obtain ⟨h1, h2, h3⟩ := position?_some hp
    have hv := h3 (i - (start + 1)) (by omega)
    rwa [getD_drop', Nat.add_sub_cancel' (by omega : start + 1 ≤ i)] at hv

theorem word_end_pos_term (bytes : List Nat) (start : Nat)
    (h : word_end_pos bytes start ≠ bytes.length) :
    is_word_terminator (bytes.getD (word_end_pos bytes start) 0) = true := by
  cases hp : position? is_word_terminator (bytes.drop (start + 1)) with
  | none => exact absurd (word_end_pos_eq_of_none hp) h
  | some n =>
    obtain ⟨h1, h2, h3⟩ := position?_some hp
    rw [word_end_pos_eq_of_some hp]
    rw [getD_drop'] at h2
    have harith : start + 1 + n = n + start + 1 := by omega
    rwa [harith] at h2

/-- Full characterization of one WordTokenizer::next step that yields an
item: the word starts at the first word byte at or after pos, contains no
terminator after its first byte, ends at the first terminator or at the
end of input, and the item is the UTF-8-checked slice of exactly that
range. -/
theorem next_token_spec (bytes : List Nat) (pos : Nat) (item : TokenResult) (p2 : Nat)
    (hpos : pos ≤ bytes.length) (h : next_token bytes pos = some (item, p2)) :
    ∃ start, start = skip_to_word bytes pos ∧
      pos ≤ start ∧ start < bytes.length ∧ start < p2 ∧ p2 ≤ bytes.length ∧
      is_word_byte (bytes.getD start 0) = true ∧
      (∀ i, pos ≤ i → i < start → is_word_byte (bytes.getD i 0) = false) ∧
      (∀ i, start < i → i < p2 → is_word_terminator (bytes.getD i 0) = false) ∧
      (p2 = bytes.length ∨ is_word_terminator (bytes.getD p2 0) = true) ∧
      item = (if validUtf8 ((bytes.drop start).take (p2 - start)) then
                TokenResult.word start ((bytes.drop start).take (p2 - start))
              else TokenResult.invalidUtf8) := by
  by_cases hs : skip_to_word bytes pos = bytes.length
  · simp [next_token, hs] at h
  · simp only [next_token, hs, if_false, Option.some.injEq, Prod.mk.injEq] at h
    obtain ⟨hitem, hp2⟩ := h
    obtain ⟨hle, hlt, hbyte⟩ := skip_to_word_found bytes pos hs
    refine ⟨skip_to_word bytes pos, rfl, hle, hlt, ?_, ?_, hbyte, ?_, ?_, ?_, ?_⟩
    · rw [← hp2]; exact word_end_pos_lower bytes _ hlt
    · rw [← hp2]; exact word_end_pos_upper bytes _
    · exact fun i h1 h2 => skip_to_word_no_word bytes pos hpos i h1 h2
    · intro i h1 h2; rw [← hp2] at h2; exact word_end_pos_no_term bytes _ i h1 h2
    · rw [← hp2]
      by_cases he : word_end_pos bytes (skip_to_word bytes pos) = bytes.length
      · exact Or.inl he
      · exact Or.inr (word_end_pos_term bytes _ he)
    · rw [← hitem, ← hp2]

theorem next_token_none (bytes : List Nat) (pos : Nat) (hpos : pos ≤ bytes.length)
    (h : next_token bytes pos = none) :
    ∀ i, pos ≤ i → i < bytes.length → is_word_byte (bytes.getD i 0) = false := by
  by_cases hs : skip_to_word bytes pos = bytes.length
  · intro i h1 h2
    exact skip_to_word_no_word bytes pos hpos i h1 (by omega)
  · simp [next_token, hs] at h

/-- Positions strictly advance across one yielded token and stay inside
the buffer. -/
theorem next_token_advance (bytes : List Nat) (pos : Nat) (item : TokenResult) (p2 : Nat)
    (hpos : pos ≤ bytes.length) (h : next_token bytes pos = some (item, p2)) :
    pos < p2 ∧ p2 ≤ bytes.length := by
  obtain ⟨start, _, hle, _, hlt, hub, _⟩ := next_token_spec bytes pos item p2 hpos h
  exact ⟨by omega, hub⟩

/-! # Claim C2 -/

/-- C2 (code_bug evidence): the add_watch guard of the notification
service rejects a mask only when it contains all five of DONT_FOLLOW,
EXCL_UNLINK, MASK_ADD, ONESHOT and ONLYDIR at once, because bitflags
contains is a superset test.  A request with ONESHOT alone (or EXCL_UNLINK
alone, or ONLYDIR alone) is accepted and a kernel watch is installed for
it, contrary to the claim that any one of the five bits fails with
InvalidInput. -/
theorem C2_mask_guard_superset_only :
    add_watch empty_service 1 IN_ONESHOT 7 =
      Except.ok
        ({ watches := [(0, { raw_wd := 1, mask := IN_ONESHOT, event_tx := 7 })]
           raw_wd_map := [(1, [0])]
           next_wd := 1
           kernel_watches := [(1, IN_ONESHOT ||| IN_MASK_ADD)] }, 0) ∧
    (add_watch empty_service 1 IN_EXCL_UNLINK 7).isOk = true ∧
    (add_watch empty_service 1 IN_ONLYDIR 7).isOk = true ∧
    add_watch empty_service 1 unsupported_mask 7 = Except.error ErrorKind.invalidInput :=
  ⟨rfl, rfl, rfl, rfl⟩

/-! # Claim C6 -/

/-- C6: once is_binary has latched true for a file, every subsequent
update_cuckoo_filter call leaves the whole FileState unchanged, whatever
bytes the chunk carries: no word is inserted into the cuckoo filter and
the (already discarded) carry buffer stays as it is. -/
theorem C6_binary_latch_frame (s : FileState) (content : FileContent)
    (h : s.is_binary = true) : s.update_cuckoo_filter content = s := by
  simp [FileState.update_cuckoo_filter, h]

theorem C6_binary_latch_frame_witness :
    (FileState.mk (FileState.new 0).cuckoo_filter [] true).update_cuckoo_filter
        { offset := 0, data := [104, 105, 255, 0], eof := true } =
      FileState.mk (FileState.new 0).cuckoo_filter [] true :=
  C6_binary_latch_frame _ _ rfl

/-! # Claim C9 -/

/-- C9 (counterexample): FileState::new seeds the generator with
StdRng::new(), which draws the seed from the operating system entropy
source; two runs whose OS entropy differs construct observably different
filters, so the construction is not deterministically seeded. -/
theorem C9_counterexample : FileState.new 0 ≠ FileState.new 1 := by decide

/-- C9 (amended): every per-file filter is built with initial capacity
100000 and false-positive probability 0.001 over an empty insert history
and an empty non-binary file state, while the generator seed is exactly
the entropy the operating system hands StdRng::new at construction time
(hence not reproducible across runs). -/
theorem C9_filter_params (os_entropy : Nat) :
    (FileState.new os_entropy).cuckoo_filter.initial_capacity = 100000 ∧
    (FileState.new os_entropy).cuckoo_filter.false_positive_num = 1 ∧
    (FileState.new os_entropy).cuckoo_filter.false_positive_den = 1000 ∧
    (FileState.new os_entropy).cuckoo_filter.rng_seed = os_entropy ∧
    (FileState.new os_entropy).cuckoo_filter.inserted = [] ∧
    (FileState.new os_entropy).buf = [] ∧
    (FileState.new os_entropy).is_binary = false :=
  ⟨rfl, rfl, rfl, rfl, rfl, rfl, rfl⟩

/-! # Claim C8 -/

theorem run_dir_watcher_start (dir : List Nat) (inputs : List WatcherPoll) :
    ∀ s : DirWatcherState,
      (run_dir_watcher dir s inputs).list_dir = true →
      s.list_dir = true ∨ WatcherPoll.item WatcherEvent.startWatching ∈ inputs := by
  induction inputs with
  | nil => intro s h; exact Or.inl h
  | cons i rest ih =>
    intro s h
    have h' : (run_dir_watcher dir (poll_watcher dir s i).1 rest).list_dir = true := h
    rcases ih _ h' with h0 | h1
    · cases i with
      | notReady => exact Or.inl h0
      | endOfStream => exact Or.inl h0
      | item e =>
        cases e with
        | notified mask name => exact Or.inl h0
        | startWatching => exact Or.inr (by simp)
        | restartWatching => exact Or.inl h0
    · exact Or.inr (List.mem_cons_of_mem _ h1)

/-- C8: a DirectoryWatcher starts with no listing task, and across any
sequence of poll_watcher steps the listing task exists only if a
StartWatching signal from the notification service was processed: the
initial directory listing is launched strictly in response to that signal,
i.e. only once the kernel watch is installed. -/
theorem C8_listing_after_watch (dir : List Nat) (inputs : List WatcherPoll)
    (h : (run_dir_watcher dir dir_watcher_initial inputs).list_dir = true) :
    WatcherPoll.item WatcherEvent.startWatching ∈ inputs := by
  rcases run_dir_watcher_start dir inputs dir_watcher_initial h with h0 | h1
  · exact absurd h0 (by simp [dir_watcher_initial])
  · exact h1

theorem C8_listing_after_watch_witness :
    (run_dir_watcher [] dir_watcher_initial
        [WatcherPoll.item WatcherEvent.startWatching]).list_dir = true ∧
      WatcherPoll.item WatcherEvent.startWatching ∈
        [WatcherPoll.item WatcherEvent.startWatching] :=
  ⟨rfl, C8_listing_after_watch [] _ rfl⟩

/-! # Claim C3 -/

/-- C3 (counterexample): on the input 0xC3 0xA9 (the letter e with acute
accent) the tokenizer yields the two-byte word as one item although its
second byte 0xA9 is a continuation byte in 0x80..0xBF, i.e. neither ASCII
alphanumeric nor a lead byte: a yielded item is not a maximal run of the
byte class the claim states. -/
theorem C3_counterexample :
    tokenize [0xC3, 0xA9] = [TokenResult.word 0 [0xC3, 0xA9]] ∧
      spec_ascii_alnum_or_lead 0xA9 = false ∧
      (0xA9 : Nat) ∈ [0xC3, 0xA9] := by decide

/-- C3 (amended): each yielded item spans the byte range from the first
byte at or after the iterator position satisfying the start class of the
code -- (b as char).is_alphanumeric() (which also holds for nine Latin-1
bytes in 0x80..0xBF such as 0xAA) or top two bits 11 -- up to but not
including the first later byte that is both below 0x80 and not
alphanumeric; bytes at or above 0x80, continuation bytes included, never
end the run.  The item is that exact slice, checked as UTF-8. -/
theorem C3_word_run (bytes : List Nat) (pos : Nat) (item : TokenResult) (p2 : Nat)
    (hpos : pos ≤ bytes.length) (h : next_token bytes pos = some (item, p2)) :
    ∃ start,
      pos ≤ start ∧ start < bytes.length ∧ start < p2 ∧ p2 ≤ bytes.length ∧
      is_word_byte (bytes.getD start 0) = true ∧
      (∀ i, pos ≤ i → i < start → is_word_byte (bytes.getD i 0) = false) ∧
      (∀ i, start < i → i < p2 → is_word_terminator (bytes.getD i 0) = false) ∧
      (p2 = bytes.length ∨ is_word_terminator (bytes.getD p2 0) = true) ∧
      item = (if validUtf8 ((bytes.drop start).take (p2 - start)) then
                TokenResult.word start ((bytes.drop start).take (p2 - start))
              else TokenResult.invalidUtf8) := by
  obtain ⟨start, _, hrest⟩ := next_token_spec bytes pos item p2 hpos h
  exact ⟨start, hrest⟩

theorem C3_word_run_witness :
    (0 : Nat) ≤ ([32, 97, 98, 32] : List Nat).length ∧
      next_token [32, 97, 98, 32] 0 = some (TokenResult.word 1 [97, 98], 3) ∧
      (∃ start,
        0 ≤ start ∧ start < ([32, 97, 98, 32] : List Nat).length ∧ start < 3 ∧
        3 ≤ ([32, 97, 98, 32] : List Nat).length ∧
        is_word_byte (([32, 97, 98, 32] : List Nat).getD start 0) = true ∧
        (∀ i, 0 ≤ i → i < start → is_word_byte (([32, 97, 98, 32] : List Nat).getD i 0) = false) ∧
        (∀ i, start < i → i < 3 →
          is_word_terminator (([32, 97, 98, 32] : List Nat).getD i 0) = false) ∧
        (3 = ([32, 97, 98, 32] : List Nat).length ∨
          is_word_terminator (([32, 97, 98, 32] : List Nat).getD 3 0) = true) ∧
        TokenResult.word 1 [97, 98] =
          (if validUtf8 ((([32, 97, 98, 32] : List Nat).drop start).take (3 - start)) then
            TokenResult.word start ((([32, 97, 98, 32] : List Nat).drop start).take (3 - start))
          else TokenResult.invalidUtf8)) :=
  ⟨by decide, by decide, C3_word_run [32, 97, 98, 32] 0 _ 3 (by decide) (by decide)⟩

/-! # Claim C5 -/

theorem receive_event_frame (s : TailerState) (ch : ChannelPoll) :
    (receive_event s ch).current_position = s.current_position ∧
    (receive_event s ch).pending_read = s.pending_read := by
  unfold receive_event; split <;> simp

theorem maybe_start_read_frame (s : TailerState) :
    (maybe_start_read s).current_position = s.current_position := by
  unfold maybe_start_read; split <;> simp

theorem maybe_start_read_inv (s : TailerState)
    (h : ∀ off, s.pending_read = some off → off = s.current_position) :
    ∀ off, (maybe_start_read s).pending_read = some off →
      off = (maybe_start_read s).current_position := by
  unfold maybe_start_read
  split
  · intro off hoff
    simp only at hoff
    simp [← Option.some.inj hoff]
  · exact h

theorem complete_read_cp (s : TailerState) (off : Nat) (data : List Nat) (eof : Bool) :
    (complete_read s off data eof).current_position = off + data.length := by
  unfold complete_read; split <;> simp

theorem complete_read_inv (s : TailerState) (off : Nat) (data : List Nat) (eof : Bool) :
    ∀ o, (complete_read s off data eof).pending_read = some o →
      o = (complete_read s off data eof).current_position := by
  unfold complete_read
  split
  · intro o ho; simp at ho
  · intro o ho
    simp only at ho
    simp [← Option.some.inj ho]

theorem tailer_run_spec (inputs : List TailerPollInput) :
    ∀ s : TailerState, (∀ off, s.pending_read = some off → off = s.current_position) →
      List.Chain' contig (tailer_run s inputs) ∧
      (∀ c, (tailer_run s inputs).head? = some c → c.offset = s.current_position) ∧
      (∀ c ∈ tailer_run s inputs, c.data ≠ []) := by
  induction inputs with
  | nil =>
    intro s hinv
    exact ⟨by simp [tailer_run], by simp [tailer_run], by simp [tailer_run]⟩
  | cons i rest ih =>
    intro s hinv
    by_cases hch : i.ch = ChannelPoll.closed
    · have hpoll : tailer_poll s i = none := by simp [tailer_poll, hch]
      have hrun : tailer_run s (i :: rest) = [] := by
        show (match tailer_poll s i with
              | none => []
              | some (s2, none) => tailer_run s2 rest
              | some (s2, some c) => c :: tailer_run s2 rest) = []
        rw [hpoll]
      rw [hrun]
      exact ⟨by simp, by simp, by simp⟩
    · have hcp2 : (maybe_start_read (receive_event s i.ch)).current_position =
          s.current_position := by
        rw [maybe_start_read_frame, (receive_event_frame s i.ch).1]
      have hinv2 : ∀ off, (maybe_start_read (receive_event s i.ch)).pending_read = some off →
          off = (maybe_start_read (receive_event s i.ch)).current_position := by
        apply maybe_start_read_inv
        intro off hoff
        rw [(receive_event_frame s i.ch).2] at hoff
        rw [(receive_event_frame s i.ch).1]
        exact hinv off hoff
      cases hpend : (maybe_start_read (receive_event s i.ch)).pending_read with
      | none =>
        have hpoll : tailer_poll s i = some (maybe_start_read (receive_event s i.ch), none) := by
          simp only [tailer_poll, hch, if_false]
          rw [hpend]
        have hrun : tailer_run s (i :: rest) =
            tailer_run (maybe_start_read (receive_event s i.ch)) rest := by
          show (match tailer_poll s i with
                | none => []
                | some (s2, none) => tailer_run s2 rest
                | some (s2, some c) => c :: tailer_run s2 rest) = _
          rw [hpoll]
        obtain ⟨ihc, ihh, ihn⟩ := ih _ hinv2
        rw [hrun]
        exact ⟨ihc, fun c hc => by rw [ihh c hc, hcp2], ihn⟩
      | some off =>
        have hoff : off = s.current_position := by
          have := hinv2 off hpend
          rw [hcp2] at this
          exact this
        cases hrd : i.read_done with
        | none =>
          have hpoll : tailer_poll s i = some (maybe_start_read (receive_event s i.ch), none) := by
            simp only [tailer_poll, hch, if_false]
            rw [hpend, hrd]
          have hrun : tailer_run s (i :: rest) =
              tailer_run (maybe_start_read (receive_event s i.ch)) rest := by
            show (match tailer_poll s i with
                  | none => []
                  | some (s2, none) => tailer_run s2 rest
                  | some (s2, some c) => c :: tailer_run s2 rest) = _
            rw [hpoll]
          obtain ⟨ihc, ihh, ihn⟩ := ih _ hinv2
          rw [hrun]
          exact ⟨ihc, fun c hc => by rw [ihh c hc, hcp2], ihn⟩
        | some pr =>
          obtain ⟨data, eof⟩ := pr
          have hpoll : tailer_poll s i =
              some (complete_read (maybe_start_read (receive_event s i.ch)) off data eof,
                if data.isEmpty then none
                else some { offset := off, data := data, eof := eof }) := by
            simp only [tailer_poll, hch, if_false]
            rw [hpend, hrd]
          obtain ⟨ihc, ihh, ihn⟩ :=
            ih (complete_read (maybe_start_read (receive_event s i.ch)) off data eof)
              (complete_read_inv _ off data eof)
          have hcp3 : (complete_read (maybe_start_read (receive_event s i.ch))
              off data eof).current_position = off + data.length := complete_read_cp _ _ _ _
          by_cases hdata : data.isEmpty
          · have hrun : tailer_run s (i :: rest) =
                tailer_run (complete_read (maybe_start_read (receive_event s i.ch))
                  off data eof) rest := by
              show (match tailer_poll s i with
                    | none => []
                    | some (s2, none) => tailer_run s2 rest
                    | some (s2, some c) => c :: tailer_run s2 rest) = _
              rw [hpoll, if_pos hdata]
            rw [hrun]
            have hdlen : data.length = 0 := by
              rw [List.isEmpty_iff] at hdata; simp [hdata]
            refine ⟨ihc, ?_, ihn⟩
            intro c hc
            rw [ihh c hc, hcp3, hdlen, hoff]
            omega
          · have hrun : tailer_run s (i :: rest) =
                { offset := off, data := data, eof := eof } ::
                  tailer_run (complete_read (maybe_start_read (receive_event s i.ch))
                    off data eof) rest := by
              show (match tailer_poll s i with
                    | none => []
                    | some (s2, none) => tailer_run s2 rest
                    | some (s2, some c) => c :: tailer_run s2 rest) = _
              rw [hpoll, if_neg hdata]
            rw [hrun]
            refine ⟨?_, ?_, ?_⟩
            · rw [List.chain'_cons']
              refine ⟨?_, ihc⟩
              intro y hy
              have := ihh y hy
              rw [hcp3] at this
              exact this.symm
            · intro c hc
              simp only [List.head?_cons, Option.some.injEq] at hc
              rw [← hc, hoff]
            · intro c hc
              rcases List.mem_cons.mp hc with hc | hc
              · rw [hc]
                show data ≠ []
                intro hd
                rw [hd] at hdata
                exact hdata rfl
              · exact ihn c hc

/-- C5: from the initial tailer state, over every sequence of poll inputs
(signal-channel states and read completions with arbitrary data), the
emitted chunks are contiguous -- each chunk's offset plus its data length
equals the next chunk's offset, because current_position advances by
exactly the data length of a completed read -- and no chunk with empty
data is ever yielded. -/
theorem C5_chunks_contiguous (inputs : List TailerPollInput) :
    List.Chain' contig (tailer_run tailer_initial inputs) ∧
      (tailer_run tailer_initial inputs).all (fun c => !c.data.isEmpty) = true := by
  obtain ⟨hc, _, hn⟩ := tailer_run_spec inputs tailer_initial (by
    intro off hoff
    simp only [tailer_initial] at hoff ⊢
    exact (Option.some.inj hoff).symm)
  refine ⟨hc, ?_⟩
  rw [List.all_eq_true]
  intro c hcmem
  have hne := hn c hcmem
  cases hd : c.data with
  | nil => exact absurd hd hne
  | cons a tl => simp [hd]

/-! # Claims C4 and C10 -/

theorem next_token_word_end (bytes : List Nat) (pos st : Nat) (w : List Nat) (p2 : Nat)
    (hpos : pos ≤ bytes.length)
    (h : next_token bytes pos = some (TokenResult.word st w, p2)) :
    st + w.length = p2 ∧ pos < p2 ∧ p2 ≤ bytes.length := by
  obtain ⟨start, hsk, hle, hlt, hlt2, hub, hbyte, hskip, hterm, hend, hitem⟩ :=
    next_token_spec bytes pos _ p2 hpos h
  by_cases hv : validUtf8 ((bytes.drop start).take (p2 - start)) = true
  · rw [if_pos hv] at hitem
    injection hitem with he1 he2
    subst he1
    subst he2
    have hwl : ((bytes.drop st).take (p2 - st)).length = p2 - st := by
      rw [List.length_take, List.length_drop]
      omega
    rw [hwl]
    omega
  · rw [if_neg hv] at hitem
    cases hitem

/-- Shape of update_cuckoo_filter when the token run does not detect
binary content. -/
theorem update_cuckoo_filter_nonbinary (s : FileState) (content : FileContent)
    (h1 : s.is_binary = false)
    (hbin : (run_tokens (s.buf ++ content.data).length s.cuckoo_filter 0
      (tokenize (s.buf ++ content.data))).2.2 = false) :
    s.update_cuckoo_filter content =
      { cuckoo_filter := (run_tokens (s.buf ++ content.data).length s.cuckoo_filter 0
          (tokenize (s.buf ++ content.data))).1
        buf := (s.buf ++ content.data).drop
          ((run_tokens (s.buf ++ content.data).length s.cuckoo_filter 0
            (tokenize (s.buf ++ content.data))).2.1)
        is_binary := false } := by
  simp only [FileState.update_cuckoo_filter]
  rw [if_neg (by rw [h1]; exact Bool.false_ne_true)]
  rw [if_neg (by rw [hbin]; exact Bool.false_ne_true)]

/-- Shape of update_cuckoo_filter when the token run does detect binary
content. -/
theorem update_cuckoo_filter_binary (s : FileState) (content : FileContent)
    (h1 : s.is_binary = false)
    (hbin : (run_tokens (s.buf ++ content.data).length s.cuckoo_filter 0
      (tokenize (s.buf ++ content.data))).2.2 = true) :
    s.update_cuckoo_filter content =
      { cuckoo_filter := (run_tokens (s.buf ++ content.data).length s.cuckoo_filter 0
          (tokenize (s.buf ++ content.data))).1
        buf := []
        is_binary := true } := by
  simp only [FileState.update_cuckoo_filter]
  rw [if_neg (by rw [h1]; exact Bool.false_ne_true)]
  rw [if_pos (by rw [hbin])]

/-- After a run of the token loop that ends without binary detection, no
word byte remains in the buffer at or after the final end position. -/
theorem run_tokens_tail_clear (bytes : List Nat) :
    ∀ (fuel pos : Nat) (fl : ScalableCuckooFilter),
      pos ≤ bytes.length → bytes.length - pos < fuel →
      (run_tokens bytes.length fl pos (tokenize_fuel bytes fuel pos)).2.2 = false →
      pos ≤ (run_tokens bytes.length fl pos (tokenize_fuel bytes fuel pos)).2.1 ∧
      (run_tokens bytes.length fl pos (tokenize_fuel bytes fuel pos)).2.1 ≤ bytes.length ∧
      ∀ i, (run_tokens bytes.length fl pos (tokenize_fuel bytes fuel pos)).2.1 ≤ i →
        i < bytes.length → is_word_byte (bytes.getD i 0) = false := by
  intro fuel
  induction fuel with
  | zero => intro pos fl hpos hfuel; omega
  | succ fuel ih =>
    intro pos fl hpos hfuel
    cases hnt : next_token bytes pos with
    | none =>
      intro _
      have hrun : tokenize_fuel bytes (fuel + 1) pos = [] := by
        show (match next_token bytes pos with
              | none => []
              | some (item, p2) => item :: tokenize_fuel bytes fuel p2) = []
        rw [hnt]
      rw [hrun]
      exact ⟨Nat.le_refl pos, hpos, fun i h1 h2 => next_token_none bytes pos hpos hnt i h1 h2⟩
    | some pr =>
      obtain ⟨item, p2⟩ := pr
      have hrun : tokenize_fuel bytes (fuel + 1) pos = item :: tokenize_fuel bytes fuel p2 := by
        show (match next_token bytes pos with
              | none => []
              | some (item, p2) => item :: tokenize_fuel bytes fuel p2) = _
        rw [hnt]
      rw [hrun]
      cases item with
      | invalidUtf8 =>
        intro hbin
        exact absurd hbin (by simp [run_tokens])
      | word st wrd =>
        obtain ⟨hwe, hadv, hub⟩ := next_token_word_end bytes pos st wrd p2 hpos hnt
        have hrt : run_tokens bytes.length fl pos
            (TokenResult.word st wrd :: tokenize_fuel bytes fuel p2) =
            run_tokens bytes.length (fl.insert wrd) (st + wrd.length)
              (tokenize_fuel bytes fuel p2) := rfl
        rw [hrt, hwe]
        intro hbin
        obtain ⟨ihe1, ihe2, ihe3⟩ := ih p2 (fl.insert wrd) hub (by omega) hbin
        exact ⟨by omega, ihe2, ihe3⟩

theorem last_word_end_cons_cons (t t2 : TokenResult) (rs : List TokenResult) :
    last_word_end (t :: t2 :: rs) = last_word_end (t2 :: rs) := by
  unfold last_word_end
  rw [List.getLast?_cons_cons]

theorem run_tokens_false_no_invalid (buf_len : Nat) :
    ∀ (toks : List TokenResult) (f : ScalableCuckooFilter) (e0 : Nat),
      (run_tokens buf_len f e0 toks).2.2 = false →
      TokenResult.invalidUtf8 ∉ toks := by
  intro toks
  induction toks with
  | nil => intro f e0 _; simp
  | cons t rest ih =>
    intro f e0 hfalse
    cases t with
    | invalidUtf8 => exact absurd hfalse (by simp [run_tokens])
    | word st w =>
      have hr : run_tokens buf_len f e0 (TokenResult.word st w :: rest) =
          run_tokens buf_len (f.insert w) (st + w.length) rest := rfl
      rw [hr] at hfalse
      intro hmem
      rcases List.mem_cons.mp hmem with heq | hmem2
      · cases heq
      · exact ih (f.insert w) (st + w.length) hfalse hmem2

/-- The end accumulator of a completed token run with no Err item is the
end position of the last yielded word, or the initial value when the run
yielded nothing. -/
theorem run_tokens_end_last (buf_len : Nat) :
    ∀ (toks : List TokenResult) (f : ScalableCuckooFilter) (e0 : Nat),
      TokenResult.invalidUtf8 ∉ toks →
      (run_tokens buf_len f e0 toks).2.1 =
        (if toks = [] then e0 else last_word_end toks) := by
  intro toks
  induction toks with
  | nil => intro f e0 _; rw [if_pos rfl]; rfl
  | cons t rest ih =>
    intro f e0 hinv
    cases t with
    | invalidUtf8 => exact absurd (List.mem_cons_self _ _) hinv
    | word st w =>
      have hr : run_tokens buf_len f e0 (TokenResult.word st w :: rest) =
          run_tokens buf_len (f.insert w) (st + w.length) rest := rfl
      rw [hr]
      have hinv2 : TokenResult.invalidUtf8 ∉ rest :=
        fun hm => hinv (List.mem_cons_of_mem _ hm)
      rw [ih (f.insert w) (st + w.length) hinv2]
      cases rest with
      | nil => rw [if_pos rfl, if_neg (by simp)]; rfl
      | cons t2 rs =>
        rw [if_neg (by simp), if_neg (by simp)]
        exact (last_word_end_cons_cons _ t2 rs).symm

/-- C4 (amended): after an update_cuckoo_filter call on a non-binary file
that leaves the file non-binary, the retained carry buffer is exactly the
suffix of the extended buffer starting at the end position of the last
yielded word -- 0 when no word was yielded -- and that suffix contains no
word byte at all: it consists purely of separator bytes.  (No length bound
holds: separator bytes accumulate, see the counterexample.) -/
theorem C4_carry_suffix (s : FileState) (content : FileContent)
    (h1 : s.is_binary = false)
    (h2 : (s.update_cuckoo_filter content).is_binary = false) :
    (s.update_cuckoo_filter content).buf =
      (s.buf ++ content.data).drop
        (last_word_end (tokenize (s.buf ++ content.data))) ∧
    last_word_end (tokenize (s.buf ++ content.data)) ≤ (s.buf ++ content.data).length ∧
    ∀ b ∈ (s.update_cuckoo_filter content).buf, is_word_byte b = false := by
  have hbin : (run_tokens (s.buf ++ content.data).length s.cuckoo_filter 0
      (tokenize (s.buf ++ content.data))).2.2 = false := by
    by_contra hcon
    rw [Bool.not_eq_false] at hcon
    rw [update_cuckoo_filter_binary s content h1 hcon] at h2
    exact absurd h2 (by simp)
  have hnoinv : TokenResult.invalidUtf8 ∉ tokenize (s.buf ++ content.data) :=
    run_tokens_false_no_invalid (s.buf ++ content.data).length
      (tokenize (s.buf ++ content.data)) s.cuckoo_filter 0 hbin
  have heq : (run_tokens (s.buf ++ content.data).length s.cuckoo_filter 0
      (tokenize (s.buf ++ content.data))).2.1 =
      last_word_end (tokenize (s.buf ++ content.data)) := by
    rw [run_tokens_end_last (s.buf ++ content.data).length
      (tokenize (s.buf ++ content.data)) s.cuckoo_filter 0 hnoinv]
    by_cases ht : tokenize (s.buf ++ content.data) = []
    · rw [if_pos ht, ht]
      rfl
    · rw [if_neg ht]
  obtain ⟨he1, he2, he3⟩ := run_tokens_tail_clear (s.buf ++ content.data)
    ((s.buf ++ content.data).length + 1) 0 s.cuckoo_filter (Nat.zero_le _) (by omega) hbin
  rw [show tokenize_fuel (s.buf ++ content.data) ((s.buf ++ content.data).length + 1) 0 =
      tokenize (s.buf ++ content.data) from rfl] at he1 he2 he3
  rw [update_cuckoo_filter_nonbinary s content h1 hbin]
  refine ⟨?_, ?_, ?_⟩
  · show (s.buf ++ content.data).drop
        ((run_tokens (s.buf ++ content.data).length s.cuckoo_filter 0
          (tokenize (s.buf ++ content.data))).2.1) =
      (s.buf ++ content.data).drop (last_word_end (tokenize (s.buf ++ content.data)))
    rw [heq]
  · rw [← heq]
    exact he2
  · intro b hb
    have hb2 : b ∈ (s.buf ++ content.data).drop
        ((run_tokens (s.buf ++ content.data).length s.cuckoo_filter 0
          (tokenize (s.buf ++ content.data))).2.1) := hb
    rw [List.mem_iff_getElem] at hb2
    obtain ⟨j, hj, hbj⟩ := hb2
    rw [List.length_drop] at hj
    have hlen : (run_tokens (s.buf ++ content.data).length s.cuckoo_filter 0
        (tokenize (s.buf ++ content.data))).2.1 + j < (s.buf ++ content.data).length := by
      omega
    have hgd := he3 ((run_tokens (s.buf ++ content.data).length s.cuckoo_filter 0
        (tokenize (s.buf ++ content.data))).2.1 + j) (by omega) hlen
    rw [List.getElem_drop] at hbj
    rw [List.getD_eq_getElem _ _ hlen] at hgd
    rw [hbj] at hgd
    exact hgd

theorem C4_carry_suffix_witness :
    (FileState.new 0).is_binary = false ∧
    ((FileState.new 0).update_cuckoo_filter
        { offset := 0, data := [97, 98, 32, 32], eof := true }).is_binary = false ∧
    last_word_end (tokenize ((FileState.new 0).buf ++ [97, 98, 32, 32])) = 2 ∧
    ((FileState.new 0).update_cuckoo_filter
        { offset := 0, data := [97, 98, 32, 32], eof := true }).buf = [32, 32] ∧
    (((FileState.new 0).update_cuckoo_filter
          { offset := 0, data := [97, 98, 32, 32], eof := true }).buf =
        ((FileState.new 0).buf ++ [97, 98, 32, 32]).drop
          (last_word_end (tokenize ((FileState.new 0).buf ++ [97, 98, 32, 32]))) ∧
      last_word_end (tokenize ((FileState.new 0).buf ++ [97, 98, 32, 32])) ≤
        ((FileState.new 0).buf ++ [97, 98, 32, 32]).length ∧
      ∀ b ∈ ((FileState.new 0).update_cuckoo_filter
          { offset := 0, data := [97, 98, 32, 32], eof := true }).buf,
        is_word_byte b = false) :=
  ⟨rfl, by decide, by decide, by decide,
    C4_carry_suffix (FileState.new 0) { offset := 0, data := [97, 98, 32, 32], eof := true }
      rfl (by decide)⟩

/-- C4 (counterexample): two chunks consisting only of separator bytes
(spaces) are both retained in full: after the second call the carry buffer
holds the six bytes of both chunks while the file is not binary, so the
buffer accumulates across chunks without bound instead of staying below
one word length. -/
theorem C4_counterexample :
    (((FileState.new 0).update_cuckoo_filter
          { offset := 0, data := List.replicate 3 32, eof := true }).update_cuckoo_filter
        { offset := 3, data := List.replicate 3 32, eof := true }).buf =
      List.replicate 6 32 ∧
    (((FileState.new 0).update_cuckoo_filter
          { offset := 0, data := List.replicate 3 32, eof := true }).update_cuckoo_filter
        { offset := 3, data := List.replicate 3 32, eof := true }).is_binary = false := by
  decide

theorem run_tokens_words_invalid (buf_len : Nat) :
    ∀ (toks : List (Nat × List Nat)) (rest : List TokenResult) (f : ScalableCuckooFilter)
      (e : Nat),
      run_tokens buf_len f e
          (toks.map (fun t => TokenResult.word t.1 t.2) ++ TokenResult.invalidUtf8 :: rest) =
        ({ f with inserted := f.inserted ++ toks.map (fun t => t.2) }, buf_len, true) := by
  intro toks
  induction toks with
  | nil => intro rest f e; simp [run_tokens]
  | cons t ts ih =>
    intro rest f e
    simp only [List.map_cons, List.cons_append, run_tokens, List.append_eq]
    rw [ih rest (f.insert t.2) (t.1 + t.2.length)]
    simp [ScalableCuckooFilter.insert, List.append_assoc]

/-- C10: when the token stream of the buffered bytes consists of some Ok
words followed by the first invalid-UTF-8 item, the update call latches
is_binary, clears only the carry buffer, and the cuckoo filter ends with
exactly the earlier words appended to its previous insert history: words
inserted before the failure are kept, not rolled back. -/
theorem C10_no_rollback (s : FileState) (content : FileContent)
    (toks : List (Nat × List Nat)) (rest : List TokenResult)
    (hbin : s.is_binary = false)
    (htok : tokenize (s.buf ++ content.data) =
      toks.map (fun t => TokenResult.word t.1 t.2) ++ TokenResult.invalidUtf8 :: rest) :
    (s.update_cuckoo_filter content).is_binary = true ∧
    (s.update_cuckoo_filter content).buf = [] ∧
    (s.update_cuckoo_filter content).cuckoo_filter.inserted =
      s.cuckoo_filter.inserted ++ toks.map (fun t => t.2) := by
  have hrt : (run_tokens (s.buf ++ content.data).length s.cuckoo_filter 0
      (tokenize (s.buf ++ content.data))).2.2 = true := by
    rw [htok, run_tokens_words_invalid]
  rw [update_cuckoo_filter_binary s content hbin hrt]
  refine ⟨rfl, rfl, ?_⟩
  rw [htok, run_tokens_words_invalid]

theorem C10_no_rollback_witness :
    (FileState.new 0).is_binary = false ∧
    tokenize ((FileState.new 0).buf ++ [97, 98, 32, 255]) =
      ([(0, [97, 98])] : List (Nat × List Nat)).map (fun t => TokenResult.word t.1 t.2) ++
        TokenResult.invalidUtf8 :: [] ∧
    ((FileState.new 0).update_cuckoo_filter
        { offset := 0, data := [97, 98, 32, 255], eof := true }).is_binary = true ∧
    ((FileState.new 0).update_cuckoo_filter
        { offset := 0, data := [97, 98, 32, 255], eof := true }).buf = [] ∧
    ((FileState.new 0).update_cuckoo_filter
        { offset := 0, data := [97, 98, 32, 255], eof := true }).cuckoo_filter.inserted =
      (FileState.new 0).cuckoo_filter.inserted ++
        ([(0, [97, 98])] : List (Nat × List Nat)).map (fun t => t.2) :=
  ⟨rfl, by decide,
    C10_no_rollback (FileState.new 0) { offset := 0, data := [97, 98, 32, 255], eof := true }
      [(0, [97, 98])] [] rfl (by decide)⟩

/-! # Claim C7 -/

theorem find?_append_none {α : Type} (l1 l2 : List α) (q : α → Bool)
    (h : l1.find? q = none) : (l1 ++ l2).find? q = l2.find? q := by
  induction l1 with
  | nil => simp
  | cons a tl ih =>
    rw [List.find?_cons] at h
    cases hq : q a with
    | true => rw [hq] at h; cases h
    | false =>
      rw [hq] at h
      rw [List.cons_append, List.find?_cons, hq]
      exact ih h

theorem remove_chan_find_none (m : List (List Nat × Nat)) (p : List Nat) :
    (remove_chan m p).find? (fun e => e.1 == p) = none := by
  rw [List.find?_eq_none]
  intro x hx
  have hqx := List.of_mem_filter hx
  simp only [bne_iff_ne, ne_eq] at hqx
  simp [hqx]

theorem lookup_chan_remove (m : List (List Nat × Nat)) (p : List Nat) :
    lookup_chan (remove_chan m p) p = none := by
  unfold lookup_chan
  rw [remove_chan_find_none]
  rfl

theorem lookup_chan_insert (m : List (List Nat × Nat)) (p : List Nat) (c : Nat) :
    lookup_chan (insert_chan m p c) p = some c := by
  unfold insert_chan lookup_chan
  rw [find?_append_none _ _ _ (remove_chan_find_none m p)]
  simp [List.find?]

theorem chan_keys_remove_nodup (m : List (List Nat × Nat)) (p : List Nat)
    (h : (chan_keys m).Nodup) : (chan_keys (remove_chan m p)).Nodup := by
  have hsub : List.Sublist ((remove_chan m p).map Prod.fst) (m.map Prod.fst) :=
    (List.filter_sublist _).map _
  exact List.Nodup.sublist hsub h

theorem not_mem_keys_remove (m : List (List Nat × Nat)) (p : List Nat) :
    p ∉ chan_keys (remove_chan m p) := by
  intro hmem
  rw [chan_keys, List.mem_map] at hmem
  obtain ⟨e, he, hep⟩ := hmem
  have hq := List.of_mem_filter he
  simp only [bne_iff_ne, ne_eq] at hq
  exact hq hep

theorem chan_keys_insert_nodup (m : List (List Nat × Nat)) (p : List Nat) (c : Nat)
    (h : (chan_keys m).Nodup) : (chan_keys (insert_chan m p c)).Nodup := by
  unfold insert_chan chan_keys
  rw [List.map_append, List.nodup_append]
  refine ⟨chan_keys_remove_nodup m p h, by simp, ?_⟩
  intro a ha hb
  simp only [List.map_cons, List.map_nil, List.mem_singleton] at hb
  subst hb
  exact not_mem_keys_remove m _ ha

/-- C7: processing one directory event preserves the one-channel-per-path
map invariant (no duplicate path keys); an Updated file event for a path
whose mapped channel is still live delivers the signal on that channel,
changes nothing and yields no new WatchedFile; and a new WatchedFile is
produced only for an unmapped path or after a failed send to a dropped
tailer, in which case the fresh channel replaces the old mapping. -/
theorem C7_single_tailer_per_path (live : Nat → Bool) (s : FsWatcherState) (ev : DirEvent)
    (h : (chan_keys s.watching_files).Nodup) :
    (chan_keys (handle_dir_event live s ev).state.watching_files).Nodup ∧
    (∀ path c, ev = DirEvent.updated path false →
      lookup_chan s.watching_files path = some c → live c = true →
      (handle_dir_event live s ev).new_file = none ∧
      (handle_dir_event live s ev).state = s ∧
      (handle_dir_event live s ev).delivered = some c) ∧
    (∀ path chan, (handle_dir_event live s ev).new_file = some (path, chan) →
      lookup_chan (handle_dir_event live s ev).state.watching_files path = some chan ∧
      (lookup_chan s.watching_files path = none ∨
        ∃ c, lookup_chan s.watching_files path = some c ∧ live c = false)) := by
  cases ev with
  | updated path0 isdir =>
    cases isdir with
    | true =>
      refine ⟨h, ?_, ?_⟩
      · intro path c hev
        simp at hev
      · intro path chan hnf
        simp only [handle_dir_event] at hnf
        cases hnf
    | false =>
      cases hl : lookup_chan s.watching_files path0 with
      | some c =>
        cases hlive : live c with
        | true =>
          have hred : handle_dir_event live s (DirEvent.updated path0 false) =
              { state := s, new_file := none, delivered := some c } := by
            simp only [handle_dir_event]
            rw [hl]
            simp [hlive]
          rw [hred]
          refine ⟨h, ?_, ?_⟩
          · intro path c2 hev hlk hlv
            have hpp : path = path0 := by
              injection hev with h1 h2
              exact h1.symm
            subst hpp
            rw [hl] at hlk
            exact ⟨rfl, rfl, by rw [Option.some.inj hlk]⟩
          · intro path chan hnf
            cases hnf
        | false =>
          have hred : handle_dir_event live s (DirEvent.updated path0 false) =
              { state :=
                  { watching_files :=
                      insert_chan (remove_chan s.watching_files path0) path0 s.next_chan
                    next_chan := s.next_chan + 1 }
                new_file := some (path0, s.next_chan)
                delivered := none } := by
            simp only [handle_dir_event]
            rw [hl]
            simp [hlive]
          rw [hred]
          refine ⟨?_, ?_, ?_⟩
          · exact chan_keys_insert_nodup _ path0 _ (chan_keys_remove_nodup _ path0 h)
          · intro path c2 hev hlk hlv
            have hpp : path = path0 := by
              injection hev with h1 h2
              exact h1.symm
            subst hpp
            rw [hl] at hlk
            rw [← Option.some.inj hlk] at hlv
            rw [hlive] at hlv
            cases hlv
          · intro path chan hnf
            injection hnf with hnf
            injection hnf with hp hc
            subst hp
            subst hc
            exact ⟨lookup_chan_insert _ _ _, Or.inr ⟨c, hl, hlive⟩⟩
      | none =>
        have hred : handle_dir_event live s (DirEvent.updated path0 false) =
            { state :=
                { watching_files := insert_chan s.watching_files path0 s.next_chan
                  next_chan := s.next_chan + 1 }
              new_file := some (path0, s.next_chan)
              delivered := none } := by
          simp only [handle_dir_event]
          rw [hl]
        rw [hred]
        refine ⟨chan_keys_insert_nodup _ path0 _ h, ?_, ?_⟩
        · intro path c2 hev hlk hlv
          have hpp : path = path0 := by
            injection hev with h1 h2
            exact h1.symm
          subst hpp
          rw [hl] at hlk
          cases hlk
        · intro path chan hnf
          injection hnf with hnf
          injection hnf with hp hc
          subst hp
          subst hc
          exact ⟨lookup_chan_insert _ _ _, Or.inl hl⟩
  | removed path0 isdir =>
    cases isdir with
    | true =>
      refine ⟨h, ?_, ?_⟩
      · intro path c hev
        simp at hev
      · intro path chan hnf
        simp only [handle_dir_event] at hnf
        cases hnf
    | false =>
      refine ⟨chan_keys_remove_nodup _ path0 h, ?_, ?_⟩
      · intro path c hev
        simp at hev
      · intro path chan hnf
        simp only [handle_dir_event] at hnf
        cases hnf

theorem C7_single_tailer_per_path_witness :
    (chan_keys (FsWatcherState.mk [] 0).watching_files).Nodup ∧
    ((chan_keys (handle_dir_event (fun _ => true) (FsWatcherState.mk [] 0)
        (DirEvent.updated [5] false)).state.watching_files).Nodup ∧
      (∀ path c, DirEvent.updated [5] false = DirEvent.updated path false →
        lookup_chan (FsWatcherState.mk [] 0).watching_files path = some c →
        (fun _ => true) c = true →
        (handle_dir_event (fun _ => true) (FsWatcherState.mk [] 0)
          (DirEvent.updated [5] false)).new_file = none ∧
        (handle_dir_event (fun _ => true) (FsWatcherState.mk [] 0)
          (DirEvent.updated [5] false)).state = FsWatcherState.mk [] 0 ∧
        (handle_dir_event (fun _ => true) (FsWatcherState.mk [] 0)
          (DirEvent.updated [5] false)).delivered = some c) ∧
      (∀ path chan,
        (handle_dir_event (fun _ => true) (FsWatcherState.mk [] 0)
          (DirEvent.updated [5] false)).new_file = some (path, chan) →
        lookup_chan (handle_dir_event (fun _ => true) (FsWatcherState.mk [] 0)
          (DirEvent.updated [5] false)).state.watching_files path = some chan ∧
        (lookup_chan (FsWatcherState.mk [] 0).watching_files path = none ∨
          ∃ c, lookup_chan (FsWatcherState.mk [] 0).watching_files path = some c ∧
            (fun _ => true) c = false))) :=
  ⟨by simp [chan_keys],
    C7_single_tailer_per_path (fun _ => true) (FsWatcherState.mk [] 0)
      (DirEvent.updated [5] false) (by simp [chan_keys])⟩

/-! # Claim C1 -/

theorem land64_eq (b : Nat) : b &&& 64 = if b / 64 % 2 = 1 then 64 else 0 := by
  have h2 := Nat.and_two_pow b 6
  norm_num at h2
  rw [h2, Nat.testBit_to_div_mod]
  norm_num
  by_cases hb : b / 64 % 2 = 1
  · simp [hb]
  · simp [hb]

theorem land64_zero (b : Nat) (h1 : 0x80 ≤ b) (h2 : b ≤ 0xBF) : b &&& 0x40 = 0 := by
  rw [land64_eq, if_neg (by omega)]

theorem land64_lead (b : Nat) (h1 : 0xC0 ≤ b) (h2 : b ≤ 0xFF) : b &&& 0x40 = 64 := by
  rw [land64_eq, if_pos (by omega)]

theorem trimBack_cons_eq (b : Nat) (tl : List Nat) :
    trimBack (b :: tl) =
      if b < 0x80 then b :: tl else if b &&& 0x40 != 0 then tl else trimBack tl := rfl

theorem trimBack_cons_ascii (b : Nat) (tl : List Nat) (h : b < 0x80) :
    trimBack (b :: tl) = b :: tl := by
  rw [trimBack_cons_eq, if_pos h]

theorem trimBack_cons_cont (b : Nat) (tl : List Nat) (h1 : 0x80 ≤ b) (h2 : b ≤ 0xBF) :
    trimBack (b :: tl) = trimBack tl := by
  rw [trimBack_cons_eq, if_neg (by omega), if_neg (by simp [land64_zero b h1 h2])]

theorem trimBack_cons_lead (b : Nat) (h1 : 0xC0 ≤ b) (h2 : b ≤ 0xFF) (tl : List Nat) :
    trimBack (b :: tl) = tl := by
  rw [trimBack_cons_eq, if_neg (by omega), if_pos (by simp [land64_lead b h1 h2])]

theorem isCont_range (b : Nat) (h : isCont b = true) : 0x80 ≤ b ∧ b ≤ 0xBF := by
  simp [isCont] at h
  exact h

theorem cont3ok_cont (b0 b1 : Nat) (h : cont3ok b0 b1 = true) : isCont b1 = true := by
  unfold cont3ok at h
  by_cases h0 : (b0 == 0xE0) = true
  · rw [if_pos h0] at h
    simp at h
    simp [isCont]
    omega
  · rw [if_neg h0] at h
    by_cases h1 : (b0 == 0xED) = true
    · rw [if_pos h1] at h
      simp at h
      simp [isCont]
      omega
    · rwa [if_neg h1] at h

theorem cont4ok_cont (b0 b1 : Nat) (h : cont4ok b0 b1 = true) : isCont b1 = true := by
  unfold cont4ok at h
  by_cases h0 : (b0 == 0xF0) = true
  · rw [if_pos h0] at h
    simp at h
    simp [isCont]
    omega
  · rw [if_neg h0] at h
    by_cases h1 : (b0 == 0xF4) = true
    · rw [if_pos h1] at h
      simp at h
      simp [isCont]
      omega
    · rwa [if_neg h1] at h

theorem validUtf8_cons_eq (b0 : Nat) (rest : List Nat) :
    validUtf8 (b0 :: rest) =
      if b0 < 0x80 then validUtf8 rest
      else if b0 < 0xC2 then false
      else if b0 ≤ 0xDF then
        (match rest with
         | b1 :: rest2 => isCont b1 && validUtf8 rest2
         | [] => false)
      else if b0 ≤ 0xEF then
        (match rest with
         | b1 :: b2 :: rest3 => cont3ok b0 b1 && isCont b2 && validUtf8 rest3
         | _ => false)
      else if b0 ≤ 0xF4 then
        (match rest with
         | b1 :: b2 :: b3 :: rest4 =>
           cont4ok b0 b1 && isCont b2 && isCont b3 && validUtf8 rest4
         | _ => false)
      else false := by
  cases rest with
  | nil => rfl
  | cons b1 r2 =>
    cases r2 with
    | nil => rfl
    | cons b2 r3 =>
      cases r3 with
      | nil => rfl
      | cons b3 r4 => rfl

theorem utf8Char_append (c : List Nat) (hc : Utf8Char c) (w : List Nat) :
    validUtf8 (c ++ w) = validUtf8 w := by
  cases hc with
  | ascii b hb =>
    simp only [List.cons_append, List.nil_append]
    rw [validUtf8_cons_eq]
    rw [if_pos hb]
  | two b0 b1 h1 h2 hcont =>
    simp only [List.cons_append, List.nil_append]
    rw [validUtf8_cons_eq]
    rw [if_neg (by omega), if_neg (by omega), if_pos h2]
    show (isCont b1 && validUtf8 w) = validUtf8 w
    rw [hcont, Bool.true_and]
  | three b0 b1 b2 h1 h2 h3ok hc2 =>
    simp only [List.cons_append, List.nil_append]
    rw [validUtf8_cons_eq]
    rw [if_neg (by omega), if_neg (by omega), if_neg (by omega), if_pos h2]
    show (cont3ok b0 b1 && isCont b2 && validUtf8 w) = validUtf8 w
    rw [h3ok, hc2, Bool.true_and, Bool.true_and]
  | four b0 b1 b2 b3 h1 h2 h4ok hc2 hc3 =>
    simp only [List.cons_append, List.nil_append]
    rw [validUtf8_cons_eq]
    rw [if_neg (by omega), if_neg (by omega), if_neg (by omega), if_neg (by omega),
      if_pos h2]
    show (cont4ok b0 b1 && isCont b2 && isCont b3 && validUtf8 w) = validUtf8 w
    rw [h4ok, hc2, hc3, Bool.true_and, Bool.true_and, Bool.true_and]

theorem validUtf8_decompose (v : List Nat) (h : validUtf8 v = true) :
    v = [] ∨ ∃ c w, v = c ++ w ∧ Utf8Char c ∧ validUtf8 w = true := by
  cases v with
  | nil => exact Or.inl rfl
  | cons b0 rest =>
    refine Or.inr ?_
    rw [validUtf8_cons_eq] at h
    by_cases h1 : b0 < 0x80
    · rw [if_pos h1] at h
      exact ⟨[b0], rest, rfl, Utf8Char.ascii b0 h1, h⟩
    · rw [if_neg h1] at h
      by_cases h2 : b0 < 0xC2
      · rw [if_pos h2] at h
        cases h
      · rw [if_neg h2] at h
        by_cases h3 : b0 ≤ 0xDF
        · rw [if_pos h3] at h
          cases rest with
          | nil => cases h
          | cons b1 rest2 =>
            rw [Bool.and_eq_true] at h
            exact ⟨[b0, b1], rest2, rfl, Utf8Char.two b0 b1 (by omega) h3 h.1, h.2⟩
        · rw [if_neg h3] at h
          by_cases h4 : b0 ≤ 0xEF
          · rw [if_pos h4] at h
            cases rest with
            | nil => cases h
            | cons b1 rest2 =>
              cases rest2 with
              | nil => cases h
              | cons b2 rest3 =>
                rw [Bool.and_eq_true, Bool.and_eq_true] at h
                exact ⟨[b0, b1, b2], rest3, rfl,
                  Utf8Char.three b0 b1 b2 (by omega) h4 h.1.1 h.1.2, h.2⟩
          · rw [if_neg h4] at h
            by_cases h5 : b0 ≤ 0xF4
            · rw [if_pos h5] at h
              cases rest with
              | nil => cases h
              | cons b1 rest2 =>
                cases rest2 with
                | nil => cases h
                | cons b2 rest3 =>
                  cases rest3 with
                  | nil => cases h
                  | cons b3 rest4 =>
                    rw [Bool.and_eq_true, Bool.and_eq_true, Bool.and_eq_true] at h
                    exact ⟨[b0, b1, b2, b3], rest4, rfl,
                      Utf8Char.four b0 b1 b2 b3 (by omega) h5 h.1.1.1 h.1.1.2 h.1.2, h.2⟩
            · rw [if_neg h5] at h
              cases h

theorem validUtf8_head_range (b : Nat) (w : List Nat) (h : validUtf8 (b :: w) = true) :
    b < 0x80 ∨ (0xC2 ≤ b ∧ b ≤ 0xF4) := by
  by_cases h1 : b < 0x80
  · exact Or.inl h1
  · right
    rw [validUtf8_cons_eq] at h
    rw [if_neg h1] at h
    by_cases h2 : b < 0xC2
    · rw [if_pos h2] at h
      cases h
    · refine ⟨by omega, ?_⟩
      rw [if_neg h2] at h
      by_cases h3 : b ≤ 0xDF
      · omega
      · rw [if_neg h3] at h
        by_cases h4 : b ≤ 0xEF
        · omega
        · rw [if_neg h4] at h
          by_cases h5 : b ≤ 0xF4
          · omega
          · rw [if_neg h5] at h
            cases h

theorem trimBack_append_all_cont (xs ys : List Nat) (h : ∀ b ∈ xs, isCont b = true) :
    trimBack (xs ++ ys) = trimBack ys := by
  induction xs with
  | nil => simp
  | cons a tl ih =>
    obtain ⟨h1, h2⟩ := isCont_range a (h a (by simp))
    rw [List.cons_append, trimBack_cons_cont a _ h1 h2]
    exact ih (fun b hb => h b (by simp [hb]))

theorem trimBack_append_of_stop (xs ys : List Nat)
    (h : ∃ b ∈ xs, b < 0x80 ∨ (0xC0 ≤ b ∧ b ≤ 0xFF)) :
    trimBack (xs ++ ys) = trimBack xs ++ ys := by
  induction xs with
  | nil =>
    obtain ⟨b, hb, _⟩ := h
    simp at hb
  | cons a tl ih =>
    by_cases ha1 : a < 0x80
    · rw [List.cons_append, trimBack_cons_ascii a _ ha1, trimBack_cons_ascii a tl ha1,
        List.cons_append]
    · by_cases ha2 : (a &&& 0x40 != 0) = true
      · have hd1 : trimBack (a :: (tl ++ ys)) = tl ++ ys := by
          rw [trimBack_cons_eq, if_neg ha1, if_pos ha2]
        have hd2 : trimBack (a :: tl) = tl := by
          rw [trimBack_cons_eq, if_neg ha1, if_pos ha2]
        rw [List.cons_append, hd1, hd2]
      · have hd1 : trimBack (a :: (tl ++ ys)) = trimBack (tl ++ ys) := by
          rw [trimBack_cons_eq, if_neg ha1, if_neg ha2]
        have hd2 : trimBack (a :: tl) = trimBack tl := by
          rw [trimBack_cons_eq, if_neg ha1, if_neg ha2]
        rw [List.cons_append, hd1, hd2]
        apply ih
        obtain ⟨b, hb, hstop⟩ := h
        rcases List.mem_cons.mp hb with rfl | hbtl
        · exfalso
          rcases hstop with hs | ⟨hs1, hs2⟩
          · exact ha1 hs
          · exact ha2 (by simp [land64_lead b hs1 hs2])
        · exact ⟨b, hbtl, hstop⟩

theorem utf8Fragment_shape (p : List Nat) (hp : Utf8Fragment p) :
    ∃ lead cs, p = lead :: cs ∧ 0xC2 ≤ lead ∧ lead ≤ 0xF4 ∧ ∀ b ∈ cs, isCont b = true := by
  cases hp with
  | two0 b0 h1 h2 => exact ⟨b0, [], rfl, h1, by omega, by simp⟩
  | three0 b0 h1 h2 => exact ⟨b0, [], rfl, by omega, by omega, by simp⟩
  | three1 b0 b1 h1 h2 h3 =>
    refine ⟨b0, [b1], rfl, by omega, by omega, ?_⟩
    intro b hb
    rw [List.mem_singleton] at hb
    subst hb
    exact cont3ok_cont b0 b h3
  | four0 b0 h1 h2 => exact ⟨b0, [], rfl, by omega, by omega, by simp⟩
  | four1 b0 b1 h1 h2 h3 =>
    refine ⟨b0, [b1], rfl, by omega, by omega, ?_⟩
    intro b hb
    rw [List.mem_singleton] at hb
    subst hb
    exact cont4ok_cont b0 b h3
  | four2 b0 b1 b2 h1 h2 h3 h4 =>
    refine ⟨b0, [b1, b2], rfl, by omega, by omega, ?_⟩
    intro b hb
    rcases List.mem_cons.mp hb with rfl | hb2
    · exact cont4ok_cont b0 b h3
    · rw [List.mem_singleton] at hb2
      subst hb2
      exact h4

theorem utf8_truncate_append_fragment (v p : List Nat) (hp : Utf8Fragment p) :
    utf8_truncate (v ++ p) = v := by
  obtain ⟨lead, cs, rfl, hl1, hl2, hcs⟩ := utf8Fragment_shape p hp
  unfold utf8_truncate
  rw [List.reverse_append, List.reverse_cons, List.append_assoc]
  rw [trimBack_append_all_cont _ _ (by intro b hb; exact hcs b (by simpa using hb))]
  rw [List.singleton_append, trimBack_cons_lead lead (by omega) (by omega)]
  exact List.reverse_reverse v

theorem utf8Char_ne_nil (c : List Nat) (hc : Utf8Char c) : c ≠ [] := by
  cases hc <;> simp

theorem utf8_truncate_valid : ∀ (n : Nat) (v : List Nat), v.length ≤ n →
    validUtf8 v = true → validUtf8 (utf8_truncate v) = true := by
  intro n
  induction n with
  | zero =>
    intro v hlen hv
    have hnil : v = [] := List.length_eq_zero.mp (by omega)
    subst hnil
    exact hv
  | succ n ih =>
    intro v hlen hv
    rcases validUtf8_decompose v hv with rfl | ⟨c, w, rfl, hc, hw⟩
    · rfl
    · cases w with
      | nil =>
        rw [List.append_nil]
        cases hc with
        | ascii b hb =>
          have ht : utf8_truncate [b] = [b] := by
            unfold utf8_truncate
            rw [show ([b] : List Nat).reverse = [b] from rfl, trimBack_cons_ascii b [] hb]
            rfl
          rw [ht]
          rw [validUtf8_cons_eq]
          rw [if_pos hb]
          rfl
        | two b0 b1 h1 h2 hcont =>
          have ht : utf8_truncate [b0, b1] = [] := by
            unfold utf8_truncate
            rw [show ([b0, b1] : List Nat).reverse = [b1, b0] from rfl]
            obtain ⟨hc1, hc2⟩ := isCont_range b1 hcont
            rw [trimBack_cons_cont b1 _ hc1 hc2,
              trimBack_cons_lead b0 (by omega) (by omega)]
            rfl
          rw [ht]
          rfl
        | three b0 b1 b2 h1 h2 h3ok hc2 =>
          have ht : utf8_truncate [b0, b1, b2] = [] := by
            unfold utf8_truncate
            rw [show ([b0, b1, b2] : List Nat).reverse = [b2, b1, b0] from rfl]
            obtain ⟨hc21, hc22⟩ := isCont_range b2 hc2
            obtain ⟨hc11, hc12⟩ := isCont_range b1 (cont3ok_cont b0 b1 h3ok)
            rw [trimBack_cons_cont b2 _ hc21 hc22, trimBack_cons_cont b1 _ hc11 hc12,
              trimBack_cons_lead b0 (by omega) (by omega)]
            rfl
          rw [ht]
          rfl
        | four b0 b1 b2 b3 h1 h2 h4ok hc2 hc3 =>
          have ht : utf8_truncate [b0, b1, b2, b3] = [] := by
            unfold utf8_truncate
            rw [show ([b0, b1, b2, b3] : List Nat).reverse = [b3, b2, b1, b0] from rfl]
            obtain ⟨hc31, hc32⟩ := isCont_range b3 hc3
            obtain ⟨hc21, hc22⟩ := isCont_range b2 hc2
            obtain ⟨hc11, hc12⟩ := isCont_range b1 (cont4ok_cont b0 b1 h4ok)
            rw [trimBack_cons_cont b3 _ hc31 hc32, trimBack_cons_cont b2 _ hc21 hc22,
              trimBack_cons_cont b1 _ hc11 hc12,
              trimBack_cons_lead b0 (by omega) (by omega)]
            rfl
          rw [ht]
          rfl
      | cons bh wt =>
        have hstop : bh < 0x80 ∨ (0xC0 ≤ bh ∧ bh ≤ 0xFF) := by
          rcases validUtf8_head_range bh wt hw with hr | ⟨hr1, hr2⟩
          · exact Or.inl hr
          · exact Or.inr ⟨by omega, by omega⟩
        have hsplit : utf8_truncate (c ++ (bh :: wt)) = c ++ utf8_truncate (bh :: wt) := by
          unfold utf8_truncate
          rw [List.reverse_append]
          rw [trimBack_append_of_stop _ _ ⟨bh, by simp, hstop⟩]
          rw [List.reverse_append, List.reverse_reverse]
        rw [hsplit]
        have hwlen : (bh :: wt).length ≤ n := by
          have hcne := utf8Char_ne_nil c hc
          have hc1 : 1 ≤ c.length := by
            cases c with
            | nil => exact absurd rfl hcne
            | cons x xs => simp
          rw [List.length_append] at hlen
          omega
        rw [utf8Char_append c hc]
        exact ih (bh :: wt) hwlen hw

/-- C1 (amended): the UTF-8 boundary trimming lives in
TextFileSubscriber::check_content of the text-file tailer
(src/watch/file.rs), not in the FileContent tailer of src/watch/fs/file.rs
(see the counterexample).  Whenever the raw read is a valid UTF-8 sequence
followed by at most one truncated final character, check_content emits a
chunk whose data is wholly valid UTF-8 (so it ends on a code-point
boundary): the backward walk drops the continuation bytes and the lead of
the truncated character -- and, conservatively, the final complete
character when the read ends exactly on it -- and the subscriber position
advances by exactly the kept length, so every trimmed byte is read again
on the next pass. -/
theorem C1_check_content_trims (file : List Nat) (pos : Nat) (v p : List Nat)
    (hraw : (file.drop pos).take READ_BUFFER_SIZE = v ++ p)
    (hv : validUtf8 v = true)
    (hp : p = [] ∨ Utf8Fragment p) :
    ∃ data,
      check_content file pos =
        Except.ok ({ offset := pos, data := data }, pos + data.length) ∧
      validUtf8 data = true ∧
      (p = [] → data = utf8_truncate v) ∧
      (Utf8Fragment p → data = v) := by
  have hvd : validUtf8 (utf8_truncate ((file.drop pos).take READ_BUFFER_SIZE)) = true := by
    rw [hraw]
    rcases hp with rfl | hfrag
    · rw [List.append_nil]
      exact utf8_truncate_valid v.length v (Nat.le_refl _) hv
    · rw [utf8_truncate_append_fragment v p hfrag]
      exact hv
  refine ⟨utf8_truncate ((file.drop pos).take READ_BUFFER_SIZE), ?_, hvd, ?_, ?_⟩
  · simp only [check_content]
    rw [if_pos hvd]
  · intro hpe
    subst hpe
    rw [hraw, List.append_nil]
  · intro hfrag
    rw [hraw, utf8_truncate_append_fragment v p hfrag]

theorem C1_check_content_trims_witness :
    (([97, 0xC3] : List Nat).drop 0).take READ_BUFFER_SIZE = [97] ++ [0xC3] ∧
    validUtf8 [97] = true ∧
    (([0xC3] : List Nat) = [] ∨ Utf8Fragment [0xC3]) ∧
    (∃ data,
      check_content [97, 0xC3] 0 =
        Except.ok ({ offset := 0, data := data }, 0 + data.length) ∧
      validUtf8 data = true ∧
      (([0xC3] : List Nat) = [] → data = utf8_truncate [97]) ∧
      (Utf8Fragment [0xC3] → data = [97])) :=
  ⟨rfl, rfl, Or.inr (Utf8Fragment.two0 0xC3 (by omega) (by omega)),
    C1_check_content_trims [97, 0xC3] 0 [97] [0xC3] rfl rfl
      (Or.inr (Utf8Fragment.two0 0xC3 (by omega) (by omega)))⟩

theorem validUtf8_replicate97 (n : Nat) (l : List Nat) :
    validUtf8 (List.replicate n 97 ++ l) = validUtf8 l := by
  induction n with
  | zero => simp
  | succ m ih =>
    rw [List.replicate_succ, List.cons_append]
    have hstep : validUtf8 (97 :: (List.replicate m 97 ++ l)) =
        validUtf8 (List.replicate m 97 ++ l) := by
      rw [validUtf8_cons_eq]
      rw [if_pos (by omega)]
    rw [hstep, ih]

theorem c1_data_eq : (read_file_content c1_file 0).data =
    List.replicate (READ_BUFFER_SIZE - 1) 97 ++ [0xC3] := by
  have hbuf : 1 ≤ READ_BUFFER_SIZE := by norm_num [READ_BUFFER_SIZE]
  have hle : (List.replicate (READ_BUFFER_SIZE - 1) 97).length ≤ READ_BUFFER_SIZE := by
    rw [List.length_replicate]
    omega
  show (c1_file.drop 0).take READ_BUFFER_SIZE = _
  rw [List.drop_zero]
  unfold c1_file
  rw [List.take_append_eq_append_take]
  rw [List.take_of_length_le hle]
  rw [List.length_replicate]
  rw [show READ_BUFFER_SIZE - (READ_BUFFER_SIZE - 1) = 1 from by omega]
  rw [show List.take 1 ([0xC3, 0xA9] : List Nat) = [0xC3] from rfl]

/-- C1 (counterexample): the FileContent tailer of src/watch/fs/file.rs
applies no UTF-8 trimming.  For a valid UTF-8 file one byte longer than
the read buffer, the first emitted chunk (nonempty, read at offset 0) ends
in the bare lead byte 0xC3 of a split two-byte character: its data is not
valid UTF-8, hence does not end on a code-point boundary, and differs from
what the trimming loop would have kept. -/
theorem C1_counterexample :
    validUtf8 c1_file = true ∧
    validUtf8 (read_file_content c1_file 0).data = false ∧
    (read_file_content c1_file 0).data ≠
      utf8_truncate (read_file_content c1_file 0).data ∧
    (read_file_content c1_file 0).data ≠ [] := by
  refine ⟨?_, ?_, ?_, ?_⟩
  · unfold c1_file
    rw [validUtf8_replicate97]
    decide
  · rw [c1_data_eq, validUtf8_replicate97]
    decide
  · rw [c1_data_eq]
    have ht : utf8_truncate (List.replicate (READ_BUFFER_SIZE - 1) 97 ++ [0xC3]) =
        List.replicate (READ_BUFFER_SIZE - 1) 97 := by
      unfold utf8_truncate
      rw [List.reverse_append]
      rw [show ([0xC3] : List Nat).reverse = [0xC3] from rfl]
      rw [List.singleton_append, trimBack_cons_lead 0xC3 (by omega) (by omega)]
      exact List.reverse_reverse _
    rw [ht]
    intro heq
    have hlen := congrArg List.length heq
    rw [List.length_append, List.length_replicate] at hlen
    have hone : ([0xC3] : List Nat).length = 1 := rfl
    rw [hone] at hlen
    omega
  · rw [c1_data_eq]
    intro heq
    have hlen := congrArg List.length heq
    rw [List.length_append, List.length_replicate] at hlen
    have hone : ([0xC3] : List Nat).length = 1 := rfl
    have hnil : ([] : List Nat).length = 0 := rfl
    rw [hone, hnil] at hlen
    omega
